import Mathlib

/-!
Verification development for the region-data lifecycle engine:
snapshot build/apply (`components/raftstore/src/store/snap/io.rs`),
range deletion (`components/engine_rocks/src/misc.rs`) and
split-key adjustment (`components/raftstore/src/coprocessor/split_observer.rs`).

Keys and values are byte strings, modelled as `List Nat` ordered
lexicographically (Rust's `&[u8]` comparison). A column family's contents
are modelled as an association list sorted strictly by key. File systems
are association lists from paths to file contents.
-/

/-- Raw byte strings; Rust `Vec<u8>` / `&[u8]`. Ordered lexicographically. -/
abbrev Bytes := List Nat

/-- One key/value pair. -/
abbrev KVPair := Bytes × Bytes

/-- One column family's contents: an association list sorted strictly by key. -/
abbrev Store := List KVPair

/-- The sortedness invariant for a `Store`: keys strictly increasing. -/
abbrev StoreWf (s : Store) : Prop :=
  List.Pairwise (fun a b : KVPair => a.1 < b.1) s

/-! ### Variable-length integer and compact-bytes framing

Modelled from the spec: the snapshot plain format is a "binary,
little-endian length-prefixed" record stream (`[varlen key][varlen value]`,
terminated by a record with zero-length key), and the compact-bytes codec of
`tikv_util::codec::bytes` (not part of the excerpt) writes each byte string
as a little-endian base-128 variable-length length prefix followed by the
raw bytes. -/

/-- Modelled from the spec: little-endian base-128 variable-length encoding
of an unsigned integer (the length prefix of a compact-bytes record). -/
def encodeVarU64 (n : Nat) : Bytes :=
  if _h : n < 128 then [n] else (n % 128 + 128) :: encodeVarU64 (n / 128)
termination_by n
decreasing_by exact Nat.div_lt_self (by omega) (by norm_num)

/-- Modelled from the spec: decoder for `encodeVarU64`; returns the decoded
integer and the remaining suffix of the input. -/
def decodeVarU64 : Bytes → Option (Nat × Bytes)
  | [] => none
  | b :: rest =>
    if b < 128 then some (b, rest)
    else
      match decodeVarU64 rest with
      | none => none
      | some (m, r) => some (b % 128 + 128 * m, r)

/-- Modelled from the spec: `encode_compact_bytes` of `tikv_util::codec::bytes`
writes a length prefix followed by the raw bytes. -/
def encode_compact_bytes (b : Bytes) : Bytes :=
  encodeVarU64 b.length ++ b

/-- Modelled from the spec: `decode_compact_bytes` reads a length prefix and
then exactly that many bytes; fails if the input is too short. -/
def decode_compact_bytes (s : Bytes) : Option (Bytes × Bytes) :=
  match decodeVarU64 s with
  | none => none
  | some (n, r) => if n ≤ r.length then some (r.take n, r.drop n) else none

theorem decodeVarU64_encodeVarU64 (n : Nat) (s : Bytes) :
    decodeVarU64 (encodeVarU64 n ++ s) = some (n, s) := by
  induction n using Nat.strong_induction_on with
  | _ n ih =>
    rw [encodeVarU64]
    by_cases h : n < 128
    · rw [dif_pos h]
      simp [decodeVarU64, h]
    · rw [dif_neg h]
      have hlt : ¬ n % 128 + 128 < 128 := by omega
      have hrec : n / 128 < n := Nat.div_lt_self (by omega) (by norm_num)
      have h2 : (n % 128 + 128) % 128 + 128 * (n / 128) = n := by omega
      rw [List.cons_append]
      simp only [decodeVarU64, if_neg hlt, ih (n / 128) hrec, h2]

theorem decodeVarU64_suffix {s : Bytes} {m : Nat} {r : Bytes}
    (h : decodeVarU64 s = some (m, r)) : ∃ p, s = p ++ r ∧ p ≠ [] := by
  induction s generalizing m with
  | nil => simp [decodeVarU64] at h
  | cons b rest ih =>
    simp only [decodeVarU64] at h
    split at h
    · obtain ⟨rfl, rfl⟩ : b = m ∧ rest = r := by simpa using h
      exact ⟨[b], by simp, by simp⟩
    · cases hd : decodeVarU64 rest with
      | none => rw [hd] at h; simp at h
      | some pr =>
        obtain ⟨m', r'⟩ := pr
        rw [hd] at h
        obtain ⟨hm, rfl⟩ : b % 128 + 128 * m' = m ∧ r' = r := by simpa using h
        obtain ⟨p, hp, _⟩ := ih hd
        exact ⟨b :: p, by simp [hp], by simp⟩

theorem decode_compact_bytes_suffix {s v r : Bytes}
    (h : decode_compact_bytes s = some (v, r)) : ∃ p, s = p ++ r ∧ p ≠ [] := by
  unfold decode_compact_bytes at h
  split at h
  · simp at h
  · rename_i n r1 hd
    split at h
    · obtain ⟨hv, hr⟩ : r1.take n = v ∧ r1.drop n = r := by simpa using h
      obtain ⟨p, hp, hpne⟩ := decodeVarU64_suffix hd
      refine ⟨p ++ r1.take n, ?_, by simp [hpne]⟩
      rw [List.append_assoc, hv, ← hr, ← hv, List.take_append_drop, hp]
    · simp at h

theorem decode_compact_bytes_length_lt {s v r : Bytes}
    (h : decode_compact_bytes s = some (v, r)) : r.length < s.length := by
  obtain ⟨p, hp, hpne⟩ := decode_compact_bytes_suffix h
  subst hp
  have : 0 < p.length := List.length_pos.mpr hpne
  simp [List.length_append]
  omega

theorem decode_encode_compact_bytes (b s : Bytes) :
    decode_compact_bytes (encode_compact_bytes b ++ s) = some (b, s) := by
  unfold decode_compact_bytes encode_compact_bytes
  rw [List.append_assoc, decodeVarU64_encodeVarU64]
  simp [List.take_append_of_le_length, List.drop_append_of_le_length,
    List.take_of_length_le, List.drop_eq_nil_of_le]

/-! ### Store primitives

The storage engine (an external capability per the spec) is modelled as a
single column family: an association list sorted strictly by key. Scanning
a range visits exactly the entries in `[start, end)` in order; a write batch
applies its puts/deletes in order. -/

/-- Entries of `s` whose key lies in `[lo, hi)`, in store order. This is both
the semantics of `scan_cf` and of a fully-consumed iterator whose
`IterOptions` bounds are `[lo, hi)`. -/
def entriesInRange (s : Store) (lo hi : Bytes) : Store :=
  s.filter (fun kv => decide (lo ≤ kv.1 ∧ kv.1 < hi))

/-- Embeds `snap.scan_cf(cf, start_key, end_key, fill_cache, f)`: forward scan of
the snapshot's entries in `[start_key, end_key)`. -/
def scan_cf (s : Store) (start_key end_key : Bytes) : Store :=
  entriesInRange s start_key end_key

/-- Insert-or-overwrite of one key into a sorted store: the effect of a
write-batch `put_cf`. -/
def putKV : Store → Bytes → Bytes → Store
  | [], k, v => [(k, v)]
  | (k0, v0) :: rest, k, v =>
    if k < k0 then (k, v) :: (k0, v0) :: rest
    else if k = k0 then (k, v) :: rest
    else (k0, v0) :: putKV rest k v

/-- Committing a write batch holding the puts of `batch`, in order. -/
def writeBatchTo (s : Store) (batch : List KVPair) : Store :=
  batch.foldl (fun st kv => putKV st kv.1 kv.2) s

/-- Committing a write batch (or ingesting a bulk-delete file) holding point
deletes of every key in `ks`: removes exactly those keys. -/
def writeDeletes (s : Store) (ks : List Bytes) : Store :=
  s.filter (fun kv => decide (kv.1 ∉ ks))

/-- Constant `WRITE_BATCH_MAX_KEYS` of `engine_rocks::write_batch`. -/
def WRITE_BATCH_MAX_KEYS : Nat := 256

/-- One iteration of the batched point-delete loop:
`wb.delete_cf(cf, key)` followed by
`if wb.count() >= WRITE_BATCH_MAX_KEYS { write(&wb); wb.clear(); }`. -/
def wbDeleteStep (acc : Store × List Bytes) (k : Bytes) : Store × List Bytes :=
  let wb := acc.2 ++ [k]
  if WRITE_BATCH_MAX_KEYS ≤ wb.length then (writeDeletes acc.1 wb, []) else (acc.1, wb)

/-- The trailing `if wb.count() > 0 { write(&wb); }` of the loop. -/
def wbDeleteFinish (acc : Store × List Bytes) : Store :=
  if 0 < acc.2.length then writeDeletes acc.1 acc.2 else acc.1

/-- The whole batched point-delete loop over the keys `ks`, as it appears in
`delete_all_in_range_cf_by_key` and in the no-writer branch of
`delete_all_in_range_cf_by_ingest`. -/
def deleteKeysBatched (s : Store) (ks : List Bytes) : Store :=
  wbDeleteFinish (ks.foldl wbDeleteStep (s, []))

theorem writeDeletes_nil (s : Store) : writeDeletes s [] = s := by
  simp [writeDeletes]

theorem writeDeletes_append (s : Store) (a b : List Bytes) :
    writeDeletes s (a ++ b) = writeDeletes (writeDeletes s a) b := by
  unfold writeDeletes
  rw [List.filter_filter]
  apply List.filter_congr
  intro kv _
  by_cases ha : kv.1 ∈ a <;> by_cases hb : kv.1 ∈ b <;> simp [ha, hb]

theorem wbDeleteLoop_eq (ks : List Bytes) (s : Store) (wb : List Bytes) :
    wbDeleteFinish (ks.foldl wbDeleteStep (s, wb)) = writeDeletes s (wb ++ ks) := by
  induction ks generalizing s wb with
  | nil =>
    simp only [List.foldl_nil, wbDeleteFinish, List.append_nil]
    split
    · rfl
    · rename_i h
      have : wb = [] := by
        cases wb with
        | nil => rfl
        | cons x xs => simp at h
      rw [this, writeDeletes_nil]
  | cons k ks ih =>
    simp only [List.foldl_cons, wbDeleteStep]
    split
    · rw [ih, ← writeDeletes_append]
      simp
    · rw [ih]
      simp

theorem deleteKeysBatched_eq (s : Store) (ks : List Bytes) :
    deleteKeysBatched s ks = writeDeletes s ks := by
  unfold deleteKeysBatched
  rw [wbDeleteLoop_eq]
  simp

/-! ### Sorted-store facts -/

theorem StoreWf.filter (p : KVPair → Bool) {s : Store} (hs : StoreWf s) :
    StoreWf (s.filter p) :=
  hs.sublist (List.filter_sublist s)

theorem StoreWf.key_inj {s : Store} (hs : StoreWf s) {kv kv' : KVPair}
    (h1 : kv ∈ s) (h2 : kv' ∈ s) (hk : kv.1 = kv'.1) : kv = kv' := by
  by_contra hne
  have hP : List.Pairwise (fun a b : KVPair => a.1 ≠ b.1) s :=
    hs.imp (fun h => ne_of_lt h)
  exact (hP.forall (fun a b h => h.symm) h1 h2 hne) hk

/-- On a sorted store, `dropWhile (key < a)` (the effect of `seek(a)`)
keeps exactly the entries with key at least `a`. -/
theorem sorted_dropWhile_lt {s : Store} (hs : StoreWf s) (a : Bytes) :
    s.dropWhile (fun kv => decide (kv.1 < a)) =
      s.filter (fun kv => decide (a ≤ kv.1)) := by
  induction s with
  | nil => rfl
  | cons kv rest ih =>
    obtain ⟨hhead, htail⟩ := List.pairwise_cons.mp hs
    by_cases h : kv.1 < a
    · rw [List.dropWhile_cons_of_pos (by simpa using h)]
      rw [ih htail, List.filter_cons_of_neg (by simpa using not_le_of_lt h)]
    · rw [List.dropWhile_cons_of_neg (by simpa using h)]
      rw [List.filter_cons_of_pos (by simpa using not_lt.mp h)]
      congr 1
      refine (List.filter_eq_self.mpr ?_).symm
      intro x hx
      have : kv.1 < x.1 := hhead x hx
      simp only [decide_eq_true_eq]
      exact le_trans (not_lt.mp h) (le_of_lt this)

/-- On a sorted store, `takeWhile (key < b)` (iterating until the range's
end key) keeps exactly the entries with key below `b`. -/
theorem sorted_takeWhile_lt {s : Store} (hs : StoreWf s) (b : Bytes) :
    s.takeWhile (fun kv => decide (kv.1 < b)) =
      s.filter (fun kv => decide (kv.1 < b)) := by
  induction s with
  | nil => rfl
  | cons kv rest ih =>
    obtain ⟨hhead, htail⟩ := List.pairwise_cons.mp hs
    by_cases h : kv.1 < b
    · rw [List.takeWhile_cons_of_pos (by simpa using h)]
      rw [ih htail, List.filter_cons_of_pos (by simpa using h)]
    · rw [List.takeWhile_cons_of_neg (by simpa using h)]
      rw [List.filter_cons_of_neg (by simpa using h)]
      refine (List.filter_eq_nil_iff.mpr ?_).symm
      intro x hx
      have : kv.1 < x.1 := hhead x hx
      simp only [decide_eq_true_eq, not_lt]
      exact le_trans (not_lt.mp h) (le_of_lt this)

/-! ### Ranges and the by-key deletion strategy -/

/-- Embeds `engine_traits::Range`: a half-open key range `[start_key, end_key)`. -/
structure KeyRange where
  start_key : Bytes
  end_key : Bytes
deriving DecidableEq

/-- Membership of a key in a half-open range. -/
def KeyRange.containsKey (r : KeyRange) (k : Bytes) : Prop :=
  r.start_key ≤ k ∧ k < r.end_key

instance (r : KeyRange) (k : Bytes) : Decidable (r.containsKey k) := by
  unfold KeyRange.containsKey; infer_instance

/-- A key lies in at least one of the given ranges. -/
def inAnyRange (ranges : List KeyRange) (k : Bytes) : Prop :=
  ∃ r ∈ ranges, r.containsKey k

instance (ranges : List KeyRange) (k : Bytes) : Decidable (inAnyRange ranges k) := by
  unfold inAnyRange; infer_instance

/-- The keys visited for range `r` by an iterator whose `IterOptions` bounds
are `[lo, hi)`: `seek(r.start_key)`, then `next()` until the key reaches
`r.end_key` (or the iterator is exhausted). -/
def iterCollectKeys (s : Store) (lo hi : Bytes) (r : KeyRange) : List Bytes :=
  (((entriesInRange s lo hi).dropWhile (fun kv => decide (kv.1 < r.start_key))).takeWhile
    (fun kv => decide (kv.1 < r.end_key))).map Prod.fst

theorem iterCollectKeys_eq {s : Store} (hs : StoreWf s) {lo hi : Bytes}
    (r : KeyRange) (hlo : lo ≤ r.start_key) (hhi : r.end_key ≤ hi) :
    iterCollectKeys s lo hi r =
      (s.filter (fun kv => decide (r.containsKey kv.1))).map Prod.fst := by
  have h1 : StoreWf (entriesInRange s lo hi) := hs.filter _
  rw [iterCollectKeys, sorted_dropWhile_lt h1, sorted_takeWhile_lt (h1.filter _)]
  unfold entriesInRange
  rw [List.filter_filter, List.filter_filter]
  congr 1
  apply List.filter_congr
  intro kv _
  by_cases h1 : r.start_key ≤ kv.1 <;> by_cases h2 : kv.1 < r.end_key <;>
    simp [h1, h2, KeyRange.containsKey]
  exact ⟨le_trans hlo h1, lt_of_lt_of_le h2 hhi⟩

theorem key_mem_filter_map_iff {s : Store} (hs : StoreWf s) (p : Bytes → Bool)
    {kv : KVPair} (hkv : kv ∈ s) :
    (kv.1 ∈ (s.filter (fun x => p x.1)).map Prod.fst) ↔ p kv.1 = true := by
  constructor
  · intro h
    obtain ⟨x, hx, hfst⟩ := List.mem_map.mp h
    obtain ⟨hxs, hpx⟩ := List.mem_filter.mp hx
    have hxkv : x = kv := hs.key_inj hxs hkv hfst
    rw [hxkv] at hpx
    exact hpx
  · intro hp
    exact List.mem_map.mpr ⟨kv, List.mem_filter.mpr ⟨hkv, hp⟩, rfl⟩

/-- Embeds `RocksEngine::delete_all_in_range_cf_by_key`: open an iterator bounded by
`[start_key, end_key)`, seek to `start_key`, point-delete every visited key
through a write batch flushed at `WRITE_BATCH_MAX_KEYS`, with a final flush
and a WAL sync. -/
def delete_all_in_range_cf_by_key (s : Store) (r : KeyRange) : Store :=
  deleteKeysBatched s (iterCollectKeys s r.start_key r.end_key r)

theorem delete_by_key_eq {s : Store} (hs : StoreWf s) (r : KeyRange) :
    delete_all_in_range_cf_by_key s r =
      s.filter (fun kv => decide (¬ r.containsKey kv.1)) := by
  rw [delete_all_in_range_cf_by_key, deleteKeysBatched_eq,
    iterCollectKeys_eq hs r le_rfl le_rfl, writeDeletes]
  apply List.filter_congr
  intro kv hkv
  have h := key_mem_filter_map_iff hs (fun k => decide (r.containsKey k)) hkv
  simp only [decide_eq_true_eq] at h
  simp only [decide_eq_decide]
  exact not_congr h

/-! ### The by-writer (bulk-delete-file) deletion strategy -/

/-- Constant `MAX_DELETE_COUNT_BY_KEY` of `engine_rocks::misc`. -/
def MAX_DELETE_COUNT_BY_KEY : Nat := 2048

/-- Engine/file-system events observable during a deletion call. -/
inductive DeleteEvent where
  | sstWriterFinish (path : String)
  | fileSync (path : String)
  | ingestFiles (path : String) (move_files : Bool)
deriving DecidableEq

/-- Loop state of `delete_all_in_range_cf_by_ingest`. `dataRev` mirrors the
`data` vector and the payload of `writer` mirrors the keys already written
to the `RocksSstWriter`, both in reverse insertion order (a `Vec` push is a
`cons` here); `writer` is `some` once the writer has been created. -/
structure IngestAcc where
  store : Store
  dataRev : List Bytes
  writer : Option (List Bytes)
  lastEnd : Option Bytes

/-- All keys currently buffered for deletion (in `data` or in the writer). -/
def accBuf (acc : IngestAcc) : List Bytes :=
  acc.dataRev ++ acc.writer.getD []

/-- One key visited inside a range: written to the sst writer if it exists,
otherwise pushed onto `data`; then
`if data.len() > MAX_DELETE_COUNT_BY_KEY` a fresh writer is built, the
buffered keys are written into it and `data` is cleared. -/
def ingestKeyStep (acc : IngestAcc) (k : Bytes) : IngestAcc :=
  let acc1 :=
    match acc.writer with
    | some ws => { acc with writer := some (k :: ws) }
    | none => { acc with dataRev := k :: acc.dataRev }
  if MAX_DELETE_COUNT_BY_KEY < acc1.dataRev.length then
    { acc1 with dataRev := [], writer := some acc1.dataRev }
  else acc1

/-- The overlap test
`last_end_key.as_ref().map_or(false, |key| key.as_slice() > r.start_key)`. -/
def overlapsPrev (lastEnd : Option Bytes) (startk : Bytes) : Bool :=
  match lastEnd with
  | some e => decide (startk < e)
  | none => false

/-- Processing of one range inside `delete_all_in_range_cf_by_ingest`: an
overlapping range falls back to `delete_all_in_range_cf_by_key` on the live
store; otherwise `last_end_key` is recorded and the range's keys (visited
through an iterator bounded by `[lo, hi)`) are fed to `ingestKeyStep`. -/
def ingestRangeStep (lo hi : Bytes) (acc : IngestAcc) (r : KeyRange) : IngestAcc :=
  if overlapsPrev acc.lastEnd r.start_key then
    { acc with store := delete_all_in_range_cf_by_key acc.store r }
  else
    (iterCollectKeys acc.store lo hi r).foldl ingestKeyStep
      { acc with lastEnd := some r.end_key }

/-- The maximal end key `ranges.iter().fold(ranges[0].end_key, ...)`. -/
def maxEndKey (r0 : KeyRange) (sorted : List KeyRange) : Bytes :=
  sorted.foldl (fun x y => max x y.end_key) r0.end_key

/-- The whole range loop of `delete_all_in_range_cf_by_ingest`, starting
from the sorted range list with head `r0`: iterator bounds are
`[r0.start_key, max_end_key)`. -/
def ingestFoldAcc (s : Store) (r0 : KeyRange) (rest : List KeyRange) : IngestAcc :=
  (r0 :: rest).foldl (ingestRangeStep r0.start_key (maxEndKey r0 (r0 :: rest)))
    ⟨s, [], none, none⟩

/-- Epilogue and result of `delete_all_in_range_cf_by_ingest` on the sorted
range list: if a writer was created it is finished and its file ingested
with `move_files(true)`; otherwise the buffered keys are deleted through a
plain write batch. -/
def ingestSorted (sst_path : String) (s : Store) (r0 : KeyRange)
    (rest : List KeyRange) : Store × List DeleteEvent :=
  match (ingestFoldAcc s r0 rest).writer with
  | some ws =>
    (writeDeletes (ingestFoldAcc s r0 rest).store ws.reverse,
      [DeleteEvent.sstWriterFinish sst_path, DeleteEvent.ingestFiles sst_path true])
  | none =>
    (deleteKeysBatched (ingestFoldAcc s r0 rest).store
      (ingestFoldAcc s r0 rest).dataRev.reverse, [])

/-- Embeds `RocksEngine::delete_all_in_range_cf_by_ingest`: sort the ranges by
start key, then run the range loop and the epilogue. (The source indexes
`ranges[0]`; callers guarantee a non-empty list, and the empty case is the
identity here.) -/
def delete_all_in_range_cf_by_ingest (sst_path : String) (s : Store)
    (ranges : List KeyRange) : Store × List DeleteEvent :=
  match ranges.mergeSort (fun a b => decide (a.start_key ≤ b.start_key)) with
  | [] => (s, [])
  | r0 :: rest => ingestSorted sst_path s r0 rest

/-- Whether the range loop created a bulk-delete file ("the in-memory buffer
exceeded the count threshold at least once"). -/
def bulkDeleteFileProduced (s : Store) (ranges : List KeyRange) : Bool :=
  match ranges.mergeSort (fun a b => decide (a.start_key ≤ b.start_key)) with
  | [] => false
  | r0 :: rest => (ingestFoldAcc s r0 rest).writer.isSome

/-! ### The four deletion strategies -/

/-- Embeds `engine_traits::DeleteStrategy`. -/
inductive DeleteStrategy where
  | deleteFiles
  | deleteByRange
  | deleteByKey
  | deleteByWriter (sst_path : String)
deriving DecidableEq

/-- Modelled from the spec: the engine primitive `delete_files_in_range_cf`
drops whole on-disk files fully contained by `[start_key, end_key)`. The
on-disk file layout is the static parameter `files` (each file the list of
keys it holds); the primitive removes exactly the keys of the fully
contained files. -/
def delete_files_in_range_cf (files : List (List Bytes)) (s : Store)
    (start_key end_key : Bytes) : Store :=
  let covered :=
    (files.filter (fun f =>
      decide (f ≠ []) && decide (∀ k ∈ f, start_key ≤ k ∧ k < end_key))).flatten
  s.filter (fun kv => decide (kv.1 ∉ covered))

/-- The effect of one `delete_range_cf` tombstone once the batch holding it
is committed: removes every key in `[start_key, end_key)`. -/
def deleteRangeStore (s : Store) (r : KeyRange) : Store :=
  s.filter (fun kv => decide (¬ r.containsKey kv.1))

/-- Embeds `RocksEngine::delete_ranges_cf` (`MiscExt`): dispatch on the strategy;
no-op on an empty range list. `DeleteFiles` skips degenerate ranges. -/
def delete_ranges_cf (files : List (List Bytes)) (s : Store)
    (strategy : DeleteStrategy) (ranges : List KeyRange) :
    Store × List DeleteEvent :=
  if ranges.isEmpty then (s, [])
  else
    match strategy with
    | .deleteFiles =>
      (ranges.foldl
        (fun st r =>
          if r.end_key ≤ r.start_key then st
          else delete_files_in_range_cf files st r.start_key r.end_key) s, [])
    | .deleteByRange => (ranges.foldl deleteRangeStore s, [])
    | .deleteByKey => (ranges.foldl delete_all_in_range_cf_by_key s, [])
    | .deleteByWriter sst_path => delete_all_in_range_cf_by_ingest sst_path s ranges

/-! ### Characterizing the deletion strategies -/

theorem inAnyRange_cons (r : KeyRange) (rs : List KeyRange) (k : Bytes) :
    inAnyRange (r :: rs) k ↔ r.containsKey k ∨ inAnyRange rs k := by
  simp [inAnyRange]

theorem filter_not_inAnyRange_nil (s : Store) :
    s.filter (fun kv => decide (¬ inAnyRange [] kv.1)) = s := by
  simp [inAnyRange]

theorem decide_not_inAnyRange_cons (r : KeyRange) (rs : List KeyRange) (k : Bytes) :
    (decide (¬ inAnyRange rs k) && decide (¬ r.containsKey k)) =
      decide (¬ inAnyRange (r :: rs) k) := by
  by_cases h1 : r.containsKey k <;> by_cases h2 : inAnyRange rs k <;>
    simp [inAnyRange_cons, h1, h2]

theorem deleteRangeStore_fold_eq (ranges : List KeyRange) (s : Store) :
    ranges.foldl deleteRangeStore s =
      s.filter (fun kv => decide (¬ inAnyRange ranges kv.1)) := by
  induction ranges generalizing s with
  | nil => rw [List.foldl_nil, filter_not_inAnyRange_nil]
  | cons r rs ih =>
    rw [List.foldl_cons, ih, deleteRangeStore, List.filter_filter]
    apply List.filter_congr
    intro kv _
    exact decide_not_inAnyRange_cons r rs kv.1

theorem delete_by_key_fold_eq (ranges : List KeyRange) {s : Store} (hs : StoreWf s) :
    ranges.foldl delete_all_in_range_cf_by_key s =
      s.filter (fun kv => decide (¬ inAnyRange ranges kv.1)) := by
  induction ranges generalizing s with
  | nil => rw [List.foldl_nil, filter_not_inAnyRange_nil]
  | cons r rs ih =>
    rw [List.foldl_cons, delete_by_key_eq hs, ih (hs.filter _), List.filter_filter]
    apply List.filter_congr
    intro kv _
    exact decide_not_inAnyRange_cons r rs kv.1

theorem inAnyRange_of_perm {l l' : List KeyRange} (h : l.Perm l') (k : Bytes) :
    inAnyRange l k ↔ inAnyRange l' k := by
  constructor
  · rintro ⟨r, hr, hc⟩
    exact ⟨r, h.mem_iff.mp hr, hc⟩
  · rintro ⟨r, hr, hc⟩
    exact ⟨r, h.mem_iff.mpr hr, hc⟩

theorem le_foldl_max_init (l : List KeyRange) (init : Bytes) :
    init ≤ l.foldl (fun x y => max x y.end_key) init := by
  induction l generalizing init with
  | nil => exact le_rfl
  | cons a l ih => exact le_trans (le_max_left _ _) (ih _)

theorem end_le_foldl_max {r : KeyRange} {l : List KeyRange} (h : r ∈ l)
    (init : Bytes) : r.end_key ≤ l.foldl (fun x y => max x y.end_key) init := by
  induction l generalizing init with
  | nil => cases h
  | cons a l ih =>
    rcases List.mem_cons.mp h with rfl | hmem
    · exact le_trans (le_max_right _ _) (le_foldl_max_init l _)
    · exact ih hmem _

theorem ingestKeyStep_eq_some (acc : IngestAcc) (k : Bytes) (ws : List Bytes)
    (hw : acc.writer = some ws)
    (hd : acc.dataRev.length ≤ MAX_DELETE_COUNT_BY_KEY) :
    ingestKeyStep acc k = { acc with writer := some (k :: ws) } := by
  unfold ingestKeyStep
  rw [hw]
  exact if_neg (by simpa using not_lt.mpr hd)

theorem ingestKeyStep_eq_trigger (acc : IngestAcc) (k : Bytes)
    (hw : acc.writer = none)
    (ht : MAX_DELETE_COUNT_BY_KEY < acc.dataRev.length + 1) :
    ingestKeyStep acc k =
      { acc with dataRev := [], writer := some (k :: acc.dataRev) } := by
  unfold ingestKeyStep
  rw [hw]
  exact if_pos (by simpa using ht)

theorem ingestKeyStep_eq_push (acc : IngestAcc) (k : Bytes)
    (hw : acc.writer = none)
    (ht : ¬ MAX_DELETE_COUNT_BY_KEY < acc.dataRev.length + 1) :
    ingestKeyStep acc k = { acc with dataRev := k :: acc.dataRev } := by
  unfold ingestKeyStep
  rw [hw]
  exact if_neg (by simpa using ht)

theorem ingestKeyStep_spec (acc : IngestAcc) (k : Bytes)
    (h5 : ∀ ws, acc.writer = some ws → acc.dataRev = []) :
    (ingestKeyStep acc k).store = acc.store ∧
    (ingestKeyStep acc k).lastEnd = acc.lastEnd ∧
    (∀ k', k' ∈ accBuf (ingestKeyStep acc k) ↔ k' = k ∨ k' ∈ accBuf acc) ∧
    (∀ ws, (ingestKeyStep acc k).writer = some ws →
      (ingestKeyStep acc k).dataRev = []) := by
  cases hw : acc.writer with
  | some ws =>
    have hdr : acc.dataRev = [] := h5 ws hw
    rw [ingestKeyStep_eq_some acc k ws hw (by simp [hdr])]
    refine ⟨rfl, rfl, ?_, fun _ _ => by simp [hdr]⟩
    intro k'
    simp [accBuf, hdr, hw]
  | none =>
    by_cases ht : MAX_DELETE_COUNT_BY_KEY < acc.dataRev.length + 1
    · rw [ingestKeyStep_eq_trigger acc k hw ht]
      refine ⟨rfl, rfl, ?_, fun _ _ => rfl⟩
      intro k'
      simp [accBuf, hw]
    · rw [ingestKeyStep_eq_push acc k hw ht]
      refine ⟨rfl, rfl, ?_, fun ws hws => by simp [hw] at hws⟩
      intro k'
      simp [accBuf, hw]

theorem ingestKeyStep_h5 (acc : IngestAcc) (k : Bytes)
    (h5 : ∀ ws, acc.writer = some ws → acc.dataRev = []) :
    ∀ ws, (ingestKeyStep acc k).writer = some ws →
      (ingestKeyStep acc k).dataRev = [] :=
  (ingestKeyStep_spec acc k h5).2.2.2

theorem ingestKeyFold_spec (ks : List Bytes) :
    ∀ acc : IngestAcc,
    (∀ ws, acc.writer = some ws → acc.dataRev = []) →
    (ks.foldl ingestKeyStep acc).store = acc.store ∧
    (ks.foldl ingestKeyStep acc).lastEnd = acc.lastEnd ∧
    (∀ k', k' ∈ accBuf (ks.foldl ingestKeyStep acc) ↔ k' ∈ ks ∨ k' ∈ accBuf acc) ∧
    (∀ ws, (ks.foldl ingestKeyStep acc).writer = some ws →
      (ks.foldl ingestKeyStep acc).dataRev = []) := by
  induction ks with
  | nil =>
    intro acc h5
    exact ⟨rfl, rfl, fun k' => by simp, h5⟩
  | cons k ks ih =>
    intro acc h5
    obtain ⟨hst, hle, hbuf, hh5⟩ := ingestKeyStep_spec acc k h5
    obtain ⟨ihst, ihle, ihbuf, ihh5⟩ := ih (ingestKeyStep acc k) hh5
    rw [List.foldl_cons]
    refine ⟨ihst.trans hst, ihle.trans hle, ?_, ihh5⟩
    intro k'
    rw [ihbuf k', hbuf k']
    simp only [List.mem_cons]
    tauto

theorem ingestKeyFold_writer (ks : List Bytes) :
    ∀ acc : IngestAcc,
    acc.dataRev.length ≤ MAX_DELETE_COUNT_BY_KEY →
    ((ks.foldl ingestKeyStep acc).writer).isSome =
      (acc.writer.isSome ||
        decide (MAX_DELETE_COUNT_BY_KEY < acc.dataRev.length + ks.length)) := by
  induction ks with
  | nil =>
    intro acc h
    simp only [List.foldl_nil, List.length_nil, Nat.add_zero]
    have hn : ¬ MAX_DELETE_COUNT_BY_KEY < acc.dataRev.length := not_lt.mpr h
    simp [hn]
  | cons k ks ih =>
    intro acc hd
    rw [List.foldl_cons]
    cases hw : acc.writer with
    | some ws =>
      rw [ingestKeyStep_eq_some acc k ws hw hd]
      rw [ih _ (by simpa using hd)]
      simp
    | none =>
      by_cases ht : MAX_DELETE_COUNT_BY_KEY < acc.dataRev.length + 1
      · rw [ingestKeyStep_eq_trigger acc k hw ht]
        rw [ih _ (by simp [MAX_DELETE_COUNT_BY_KEY])]
        have hd2 : acc.dataRev.length = MAX_DELETE_COUNT_BY_KEY := by omega
        have h3 : MAX_DELETE_COUNT_BY_KEY < acc.dataRev.length + (k :: ks).length := by
          simp [List.length_cons]
          omega
        simp [hd2, hw, h3]
      · rw [ingestKeyStep_eq_push acc k hw ht]
        rw [ih _ (by simpa using not_lt.mp ht)]
        simp only [hw, Option.isSome_none, Bool.false_or, List.length_cons]
        exact decide_eq_decide.mpr (by omega)


theorem inAnyRange_append (l1 l2 : List KeyRange) (k : Bytes) :
    inAnyRange (l1 ++ l2) k ↔ inAnyRange l1 k ∨ inAnyRange l2 k := by
  simp [inAnyRange, List.mem_append]
  constructor
  · rintro ⟨r, hr | hr, hc⟩
    · exact Or.inl ⟨r, hr, hc⟩
    · exact Or.inr ⟨r, hr, hc⟩
  · rintro (⟨r, hr, hc⟩ | ⟨r, hr, hc⟩)
    · exact ⟨r, Or.inl hr, hc⟩
    · exact ⟨r, Or.inr hr, hc⟩

theorem ingestRangeStep_eq_fallback (lo hi : Bytes) (acc : IngestAcc) (r : KeyRange)
    (h : overlapsPrev acc.lastEnd r.start_key = true) :
    ingestRangeStep lo hi acc r =
      { acc with store := delete_all_in_range_cf_by_key acc.store r } := by
  unfold ingestRangeStep
  rw [if_pos h]

theorem ingestRangeStep_eq_normal (lo hi : Bytes) (acc : IngestAcc) (r : KeyRange)
    (h : overlapsPrev acc.lastEnd r.start_key = false) :
    ingestRangeStep lo hi acc r =
      (iterCollectKeys acc.store lo hi r).foldl ingestKeyStep
        { acc with lastEnd := some r.end_key } := by
  unfold ingestRangeStep
  rw [if_neg (by simp [h])]

theorem ingestRangeFold_spec (s0 : Store) (hs0 : StoreWf s0) (lo hi : Bytes) :
    ∀ (todo processed : List KeyRange) (acc : IngestAcc) (fb : List KeyRange),
    (∀ r ∈ todo, lo ≤ r.start_key ∧ r.end_key ≤ hi) →
    acc.store = s0.filter (fun kv => decide (¬ inAnyRange fb kv.1)) →
    (∀ k, inAnyRange fb k → inAnyRange processed k) →
    (∀ kv ∈ s0, inAnyRange processed kv.1 → inAnyRange fb kv.1 ∨ kv.1 ∈ accBuf acc) →
    (∀ k ∈ accBuf acc, inAnyRange processed k) →
    (∀ ws, acc.writer = some ws → acc.dataRev = []) →
    ∃ fb' : List KeyRange,
      (todo.foldl (ingestRangeStep lo hi) acc).store =
        s0.filter (fun kv => decide (¬ inAnyRange fb' kv.1)) ∧
      (∀ k, inAnyRange fb' k → inAnyRange (processed ++ todo) k) ∧
      (∀ kv ∈ s0, inAnyRange (processed ++ todo) kv.1 →
        inAnyRange fb' kv.1 ∨ kv.1 ∈ accBuf (todo.foldl (ingestRangeStep lo hi) acc)) ∧
      (∀ k ∈ accBuf (todo.foldl (ingestRangeStep lo hi) acc),
        inAnyRange (processed ++ todo) k) ∧
      (∀ ws, (todo.foldl (ingestRangeStep lo hi) acc).writer = some ws →
        (todo.foldl (ingestRangeStep lo hi) acc).dataRev = []) := by
  intro todo
  induction todo with
  | nil =>
    intro processed acc fb _ h1 h2 h3 h4 h5
    exact ⟨fb, by simpa using h1, by simpa using h2, by simpa using h3,
      by simpa using h4, h5⟩
  | cons r todo ih =>
    intro processed acc fb hb h1 h2 h3 h4 h5
    rw [List.foldl_cons]
    have hwf_store : StoreWf acc.store := by
      rw [h1]; exact hs0.filter _
    cases hov : overlapsPrev acc.lastEnd r.start_key with
    | true =>
      rw [ingestRangeStep_eq_fallback lo hi acc r hov]
      have hstep : delete_all_in_range_cf_by_key acc.store r =
          s0.filter (fun kv => decide (¬ inAnyRange (r :: fb) kv.1)) := by
        rw [delete_by_key_eq hwf_store, h1, List.filter_filter]
        apply List.filter_congr
        intro kv _
        rw [Bool.and_comm]
        exact decide_not_inAnyRange_cons r fb kv.1
      obtain ⟨fb', c1, c2, c3, c4, c5⟩ :=
        ih (processed ++ [r]) { acc with store := delete_all_in_range_cf_by_key acc.store r }
          (r :: fb)
          (fun r' hr' => hb r' (List.mem_cons_of_mem r hr'))
          hstep
          (by
            intro k hk
            rcases (inAnyRange_cons r fb k).mp hk with hc | hc
            · exact (inAnyRange_append processed [r] k).mpr
                (Or.inr ⟨r, by simp, hc⟩)
            · exact (inAnyRange_append processed [r] k).mpr (Or.inl (h2 k hc)))
          (by
            intro kv hkv hin
            rcases (inAnyRange_append processed [r] kv.1).mp hin with hc | hc
            · rcases h3 kv hkv hc with hfb | hbuf
              · exact Or.inl ((inAnyRange_cons r fb kv.1).mpr (Or.inr hfb))
              · exact Or.inr hbuf
            · obtain ⟨r', hr', hcc⟩ := hc
              have : r' = r := by simpa using hr'
              exact Or.inl ((inAnyRange_cons r fb kv.1).mpr (Or.inl (this ▸ hcc))))
          (by
            intro k hk
            exact (inAnyRange_append processed [r] k).mpr (Or.inl (h4 k hk)))
          h5
      refine ⟨fb', c1, ?_, ?_, ?_, c5⟩
      · intro k hk
        have := c2 k hk
        rw [List.append_assoc] at this
        simpa using this
      · intro kv hkv hin
        apply c3 kv hkv
        rw [List.append_assoc]
        simpa using hin
      · intro k hk
        have := c4 k hk
        rw [List.append_assoc] at this
        simpa using this
    | false =>
      rw [ingestRangeStep_eq_normal lo hi acc r hov]
      have hbr := hb r (List.mem_cons_self r todo)
      have hks : iterCollectKeys acc.store lo hi r =
          (acc.store.filter (fun kv => decide (r.containsKey kv.1))).map Prod.fst :=
        iterCollectKeys_eq hwf_store r hbr.1 hbr.2
      obtain ⟨f1, f2, f3, f4⟩ :=
        ingestKeyFold_spec (iterCollectKeys acc.store lo hi r)
          { acc with lastEnd := some r.end_key } h5
      set acc2 := (iterCollectKeys acc.store lo hi r).foldl ingestKeyStep
        { acc with lastEnd := some r.end_key } with hacc2
      obtain ⟨fb', c1, c2, c3, c4, c5⟩ :=
        ih (processed ++ [r]) acc2 fb
          (fun r' hr' => hb r' (List.mem_cons_of_mem r hr'))
          (by rw [f1]; exact h1)
          (fun k hk => (inAnyRange_append processed [r] k).mpr (Or.inl (h2 k hk)))
          (by
            intro kv hkv hin
            rcases (inAnyRange_append processed [r] kv.1).mp hin with hc | hc
            · rcases h3 kv hkv hc with hfb | hbuf
              · exact Or.inl hfb
              · exact Or.inr ((f3 kv.1).mpr (Or.inr (by simpa [accBuf] using hbuf)))
            · obtain ⟨r', hr', hcc⟩ := hc
              have hrr : r' = r := by simpa using hr'
              subst hrr
              by_cases hfb : inAnyRange fb kv.1
              · exact Or.inl hfb
              · refine Or.inr ((f3 kv.1).mpr (Or.inl ?_))
                rw [hks]
                have hmem : kv ∈ acc.store := by
                  rw [h1]
                  exact List.mem_filter.mpr ⟨hkv, by simpa using hfb⟩
                exact List.mem_map.mpr
                  ⟨kv, List.mem_filter.mpr ⟨hmem, by simpa using hcc⟩, rfl⟩)
          (by
            intro k hk
            rcases (f3 k).mp hk with hks' | hbuf
            · rw [hks] at hks'
              obtain ⟨x, hx, hfst⟩ := List.mem_map.mp hks'
              obtain ⟨_, hpx⟩ := List.mem_filter.mp hx
              refine (inAnyRange_append processed [r] k).mpr (Or.inr ⟨r, by simp, ?_⟩)
              rw [← hfst]
              simpa using hpx
            · exact (inAnyRange_append processed [r] k).mpr
                (Or.inl (h4 k (by simpa [accBuf] using hbuf))))
          f4
      refine ⟨fb', c1, ?_, ?_, ?_, c5⟩
      · intro k hk
        have := c2 k hk
        rw [List.append_assoc] at this
        simpa using this
      · intro kv hkv hin
        apply c3 kv hkv
        rw [List.append_assoc]
        simpa using hin
      · intro k hk
        have := c4 k hk
        rw [List.append_assoc] at this
        simpa using this

theorem ingestSorted_eq_writer (p : String) (s : Store) (r0 : KeyRange)
    (rest : List KeyRange) (ws : List Bytes)
    (hw : (ingestFoldAcc s r0 rest).writer = some ws) :
    ingestSorted p s r0 rest =
      (writeDeletes (ingestFoldAcc s r0 rest).store ws.reverse,
        [DeleteEvent.sstWriterFinish p, DeleteEvent.ingestFiles p true]) := by
  unfold ingestSorted
  rw [hw]

theorem ingestSorted_eq_nowriter (p : String) (s : Store) (r0 : KeyRange)
    (rest : List KeyRange)
    (hw : (ingestFoldAcc s r0 rest).writer = none) :
    ingestSorted p s r0 rest =
      (deleteKeysBatched (ingestFoldAcc s r0 rest).store
        (ingestFoldAcc s r0 rest).dataRev.reverse, []) := by
  unfold ingestSorted
  rw [hw]

theorem ingestFoldAcc_spec {s0 : Store} (hs0 : StoreWf s0)
    (r0 : KeyRange) (rest : List KeyRange)
    (hstart : ∀ r ∈ r0 :: rest, r0.start_key ≤ r.start_key) :
    ∃ fb' : List KeyRange,
      (ingestFoldAcc s0 r0 rest).store =
        s0.filter (fun kv => decide (¬ inAnyRange fb' kv.1)) ∧
      (∀ k, inAnyRange fb' k → inAnyRange (r0 :: rest) k) ∧
      (∀ kv ∈ s0, inAnyRange (r0 :: rest) kv.1 →
        inAnyRange fb' kv.1 ∨ kv.1 ∈ accBuf (ingestFoldAcc s0 r0 rest)) ∧
      (∀ k ∈ accBuf (ingestFoldAcc s0 r0 rest), inAnyRange (r0 :: rest) k) ∧
      (∀ ws, (ingestFoldAcc s0 r0 rest).writer = some ws →
        (ingestFoldAcc s0 r0 rest).dataRev = []) := by
  have hb : ∀ r ∈ r0 :: rest,
      r0.start_key ≤ r.start_key ∧ r.end_key ≤ maxEndKey r0 (r0 :: rest) :=
    fun r hr => ⟨hstart r hr, end_le_foldl_max hr _⟩
  obtain ⟨fb', c1, c2, c3, c4, c5⟩ :=
    ingestRangeFold_spec s0 hs0 r0.start_key (maxEndKey r0 (r0 :: rest))
      (r0 :: rest) [] ⟨s0, [], none, none⟩ []
      hb
      (by simpa using (filter_not_inAnyRange_nil s0).symm)
      (by intro k hk; simp [inAnyRange] at hk)
      (by intro kv _ hin; simp [inAnyRange] at hin)
      (by intro k hk; simp [accBuf] at hk)
      (by intro ws h; simp at h)
  simp only [List.nil_append] at c2 c3 c4
  exact ⟨fb', c1, c2, c3, c4, c5⟩

theorem ingestSorted_store {s0 : Store} (hs0 : StoreWf s0) (p : String)
    (r0 : KeyRange) (rest : List KeyRange)
    (hstart : ∀ r ∈ r0 :: rest, r0.start_key ≤ r.start_key) :
    (ingestSorted p s0 r0 rest).1 =
      s0.filter (fun kv => decide (¬ inAnyRange (r0 :: rest) kv.1)) := by
  obtain ⟨fb', c1, c2, c3, c4, c5⟩ := ingestFoldAcc_spec hs0 r0 rest hstart
  cases hw : (ingestFoldAcc s0 r0 rest).writer with
  | some ws =>
    rw [ingestSorted_eq_writer p s0 r0 rest ws hw]
    have hdr : (ingestFoldAcc s0 r0 rest).dataRev = [] := c5 ws hw
    have hbuf : ∀ k, k ∈ accBuf (ingestFoldAcc s0 r0 rest) ↔ k ∈ ws := by
      intro k
      simp [accBuf, hdr, hw]
    rw [writeDeletes, c1, List.filter_filter]
    apply List.filter_congr
    intro kv hkv
    rw [← Bool.decide_and, decide_eq_decide]
    constructor
    · rintro ⟨hnw, hnfb⟩ hin
      rcases c3 kv hkv hin with hfb | hb
      · exact hnfb hfb
      · exact hnw (by simpa using (hbuf kv.1).mp hb)
    · intro hnin
      refine ⟨?_, fun hfb => hnin (c2 kv.1 hfb)⟩
      intro hmem
      exact hnin (c4 kv.1 ((hbuf kv.1).mpr (by simpa using hmem)))
  | none =>
    rw [ingestSorted_eq_nowriter p s0 r0 rest hw]
    have hbuf : ∀ k, k ∈ accBuf (ingestFoldAcc s0 r0 rest) ↔
        k ∈ (ingestFoldAcc s0 r0 rest).dataRev := by
      intro k
      simp [accBuf, hw]
    rw [deleteKeysBatched_eq, writeDeletes, c1, List.filter_filter]
    apply List.filter_congr
    intro kv hkv
    rw [← Bool.decide_and, decide_eq_decide]
    constructor
    · rintro ⟨hnw, hnfb⟩ hin
      rcases c3 kv hkv hin with hfb | hb
      · exact hnfb hfb
      · exact hnw (by simpa using (hbuf kv.1).mp hb)
    · intro hnin
      refine ⟨?_, fun hfb => hnin (c2 kv.1 hfb)⟩
      intro hmem
      exact hnin (c4 kv.1 ((hbuf kv.1).mpr (by simpa using hmem)))

theorem mergeSort_start_le {ranges r0rest : List KeyRange}
    (h : ranges.mergeSort (fun a b => decide (a.start_key ≤ b.start_key)) = r0rest) :
    ∀ r0 rest, r0rest = r0 :: rest → ∀ r ∈ r0 :: rest, r0.start_key ≤ r.start_key := by
  intro r0 rest hcons r hr
  have hp := @List.sorted_mergeSort KeyRange
    (fun a b => decide (a.start_key ≤ b.start_key))
    (fun a b c hab hbc => by
      simp only [decide_eq_true_eq] at *
      exact le_trans hab hbc)
    (fun a b => by simpa using le_total a.start_key b.start_key)
    ranges
  rw [h, hcons] at hp
  rcases List.mem_cons.mp hr with rfl | hmem
  · exact le_rfl
  · have := (List.pairwise_cons.mp hp).1 r hmem
    simpa using this

theorem delete_by_ingest_store {s : Store} (hs : StoreWf s) (p : String)
    (ranges : List KeyRange) :
    (delete_all_in_range_cf_by_ingest p s ranges).1 =
      s.filter (fun kv => decide (¬ inAnyRange ranges kv.1)) := by
  unfold delete_all_in_range_cf_by_ingest
  cases hms : ranges.mergeSort (fun a b => decide (a.start_key ≤ b.start_key)) with
  | nil =>
    have hp := List.mergeSort_perm ranges (fun a b => decide (a.start_key ≤ b.start_key))
    rw [hms] at hp
    have hnil : ranges = [] := hp.symm.eq_nil
    subst hnil
    rw [filter_not_inAnyRange_nil]
  | cons r0 rest =>
    have hp := List.mergeSort_perm ranges (fun a b => decide (a.start_key ≤ b.start_key))
    rw [hms] at hp
    rw [ingestSorted_store hs p r0 rest (mergeSort_start_le hms r0 rest rfl)]
    apply List.filter_congr
    intro kv _
    exact decide_eq_decide.mpr (not_congr (inAnyRange_of_perm hp kv.1))

/-- The keys of the on-disk files fully contained in range `r`. -/
def filesCovered (files : List (List Bytes)) (r : KeyRange) : List Bytes :=
  (files.filter (fun f =>
    decide (f ≠ []) && decide (∀ k ∈ f, r.start_key ≤ k ∧ k < r.end_key))).flatten

theorem delete_files_in_range_cf_eq (files : List (List Bytes)) (s : Store)
    (a b : Bytes) :
    delete_files_in_range_cf files s a b =
      s.filter (fun kv => decide (kv.1 ∉ filesCovered files ⟨a, b⟩)) := rfl

theorem mem_filesCovered_contains {files : List (List Bytes)} {r : KeyRange}
    {k : Bytes} (h : k ∈ filesCovered files r) : r.containsKey k := by
  obtain ⟨f, hf, hk⟩ := List.mem_flatten.mp h
  obtain ⟨_, hcond⟩ := List.mem_filter.mp hf
  simp only [Bool.and_eq_true, decide_eq_true_eq] at hcond
  exact hcond.2 k hk

/-- Which keys a whole `DeleteFiles` pass over `ranges` drops: keys of a file
fully contained in some non-degenerate range. -/
def filesDeletedPred (files : List (List Bytes)) (ranges : List KeyRange)
    (k : Bytes) : Prop :=
  ∃ r ∈ ranges, ¬ r.end_key ≤ r.start_key ∧ k ∈ filesCovered files r

instance (files : List (List Bytes)) (ranges : List KeyRange) (k : Bytes) :
    Decidable (filesDeletedPred files ranges k) := by
  unfold filesDeletedPred; infer_instance

theorem filesDeletedPred_in_range {files : List (List Bytes)}
    {ranges : List KeyRange} {k : Bytes}
    (h : filesDeletedPred files ranges k) : inAnyRange ranges k := by
  obtain ⟨r, hr, _, hcov⟩ := h
  exact ⟨r, hr, mem_filesCovered_contains hcov⟩

theorem deleteFiles_fold_eq (files : List (List Bytes)) (ranges : List KeyRange)
    (s : Store) :
    ranges.foldl
      (fun st r =>
        if r.end_key ≤ r.start_key then st
        else delete_files_in_range_cf files st r.start_key r.end_key) s =
      s.filter (fun kv => decide (¬ filesDeletedPred files ranges kv.1)) := by
  induction ranges generalizing s with
  | nil => simp [filesDeletedPred]
  | cons r rs ih =>
    rw [List.foldl_cons, ih]
    by_cases hdeg : r.end_key ≤ r.start_key
    · rw [if_pos hdeg]
      apply List.filter_congr
      intro kv _
      apply decide_eq_decide.mpr
      apply not_congr
      constructor
      · intro ⟨r', hr', hx⟩
        exact ⟨r', List.mem_cons_of_mem r hr', hx⟩
      · rintro ⟨r', hr', hnd, hx⟩
        rcases List.mem_cons.mp hr' with rfl | hmem
        · exact absurd hdeg hnd
        · exact ⟨r', hmem, hnd, hx⟩
    · rw [if_neg hdeg, delete_files_in_range_cf_eq, List.filter_filter]
      apply List.filter_congr
      intro kv _
      rw [← Bool.decide_and, decide_eq_decide]
      constructor
      · rintro ⟨hnrs, hncov⟩ ⟨r', hr', hnd, hx⟩
        rcases List.mem_cons.mp hr' with rfl | hmem
        · exact hncov hx
        · exact hnrs ⟨r', hmem, hnd, hx⟩
      · intro hn
        refine ⟨fun ⟨r', hm, hnd, hx⟩ => hn ⟨r', List.mem_cons_of_mem r hm, hnd, hx⟩,
          fun hx => hn ⟨r, List.mem_cons_self r rs, hdeg, hx⟩⟩

/-- The final store of `delete_ranges_cf` for every strategy except
`DeleteFiles`: exactly the keys inside some input range are removed. -/
theorem delete_ranges_cf_store_nonfiles (files : List (List Bytes)) {s : Store}
    (hs : StoreWf s) (strategy : DeleteStrategy) (ranges : List KeyRange)
    (hstrat : strategy ≠ DeleteStrategy.deleteFiles) :
    (delete_ranges_cf files s strategy ranges).1 =
      s.filter (fun kv => decide (¬ inAnyRange ranges kv.1)) := by
  unfold delete_ranges_cf
  by_cases he : ranges.isEmpty
  · have hnil : ranges = [] := List.isEmpty_iff.mp he
    subst hnil
    simp [inAnyRange]
  · rw [if_neg he]
    cases strategy with
    | deleteFiles => exact absurd rfl hstrat
    | deleteByRange => simpa using deleteRangeStore_fold_eq ranges s
    | deleteByKey => simpa using delete_by_key_fold_eq ranges hs
    | deleteByWriter p => simpa using delete_by_ingest_store hs p ranges

/-- The final store of `delete_ranges_cf` for `DeleteFiles`. -/
theorem delete_ranges_cf_store_files (files : List (List Bytes)) (s : Store)
    (ranges : List KeyRange) :
    (delete_ranges_cf files s DeleteStrategy.deleteFiles ranges).1 =
      s.filter (fun kv => decide (¬ filesDeletedPred files ranges kv.1)) := by
  unfold delete_ranges_cf
  by_cases he : ranges.isEmpty
  · have hnil : ranges = [] := List.isEmpty_iff.mp he
    subst hnil
    simp [filesDeletedPred]
  · rw [if_neg he]
    simpa using deleteFiles_fold_eq files ranges s

theorem filter_idem (s : Store) (p : KVPair → Bool) :
    (s.filter p).filter p = s.filter p := by
  rw [List.filter_filter]
  apply List.filter_congr
  intro kv _
  exact Bool.and_self _

/-! ### Snapshot files: build side -/

/-- Contents of a file: the raw byte stream of a plain snapshot file, or a
bulk-loadable sst file (opaque to this layer; modelled by the entries the
engine would ingest from it). -/
inductive FileContent where
  | plain (bytes : Bytes)
  | sst (entries : Store)
deriving DecidableEq

/-- A file system: an association list from paths to file contents. -/
abbrev FS := List (String × FileContent)

def lookupFS (fs : FS) (path : String) : Option FileContent :=
  (fs.find? (fun e => e.1 == path)).map (fun e => e.2)

def setFile (fs : FS) (path : String) (c : FileContent) : FS :=
  fs ++ [(path, c)]

def removeFile (fs : FS) (path : String) : FS :=
  fs.filter (fun e => !(e.1 == path))

/-- Embeds `BuildStatistics` of `raftstore::store::snap::io`. -/
structure BuildStatistics where
  key_count : Nat
  total_size : Nat
deriving DecidableEq

/-- The error kinds reachable in this layer: wrapped io/engine failures
(`box_try!`) and the cooperative-cancellation `Error::Abort`. -/
inductive SnapError where
  | ioErr
  | abort
deriving DecidableEq

/-- The body of a plain snapshot file: each scanned pair written as
compact-bytes key then compact-bytes value. -/
def plainBody (kvs : List KVPair) : Bytes :=
  (kvs.map (fun kv => encode_compact_bytes kv.1 ++ encode_compact_bytes kv.2)).flatten

/-- Statistics accumulated by the scan callbacks. -/
def buildStats (kvs : List KVPair) : BuildStatistics :=
  ⟨kvs.length, (kvs.map (fun kv => kv.1.length + kv.2.length)).sum⟩

/-- Embeds `build_plain_cf_file`: open the path with exclusive create (error if it
already exists), scan `[start_key, end_key)` writing each pair
compact-bytes encoded; on at least one pair append the zero-length-key
terminator and fsync, on zero pairs remove the just-created empty file. -/
def build_plain_cf_file (fs : FS) (path : String) (snap : Store)
    (start_key end_key : Bytes) : Except SnapError (FS × BuildStatistics) :=
  if (lookupFS fs path).isSome then .error .ioErr
  else
    let kvs := scan_cf snap start_key end_key
    if 0 < kvs.length then
      .ok (setFile fs path
        (.plain (plainBody kvs ++ encode_compact_bytes [])), buildStats kvs)
    else
      .ok (removeFile (setFile fs path (.plain (plainBody kvs))) path,
        buildStats kvs)

/-- Embeds `build_sst_cf_file`: create an sst writer at `path` (the engine creates
the file), scan the range draining the rate limiter in fixed-size chunks
(timing only; no store or file-system effect), put each pair into the
writer; on at least one pair finish the writer and fsync the file, on zero
pairs remove it. -/
def build_sst_cf_file (fs : FS) (path : String) (snap : Store)
    (start_key end_key : Bytes) : Except SnapError (FS × BuildStatistics) :=
  let kvs := scan_cf snap start_key end_key
  if 0 < kvs.length then
    .ok (setFile fs path (.sst kvs), buildStats kvs)
  else
    .ok (removeFile (setFile fs path (.sst [])) path, buildStats kvs)

/-! ### Snapshot files: apply side -/

instance : DecidableEq (Except SnapError Unit) := fun a b => by
  rcases a with e | x <;> rcases b with f | y
  · exact if h : e = f then isTrue (by rw [h])
      else isFalse (fun hh => by cases hh; exact h rfl)
  · exact isFalse (fun hh => by cases hh)
  · exact isFalse (fun hh => by cases hh)
  · cases x; cases y; exact isTrue rfl

/-- Result of a plain apply: outcome, final target store, the batches passed
to the observation callback (in order), and the number of records decoded. -/
structure ApplyResult where
  res : Except SnapError Unit
  store : Store
  flushed : List (List KVPair)
  decoded : Nat
deriving DecidableEq

/-- The loop of `apply_plain_cf_file`. The stale detector is queried at the
top of every iteration (`d q` for the `q`-th query); then one compact-bytes
record is decoded. A zero-length key flushes the remaining batch and
returns; otherwise the value is decoded, the pair pushed, and the batch is
flushed once its accumulated byte size reaches `batch_size`. -/
def applyLoop (d : Nat → Bool) (batch_size : Nat) (store : Store)
    (batch : List KVPair) (size : Nat) (flushed : List (List KVPair))
    (q : Nat) (stream : Bytes) : ApplyResult :=
  if d q then ⟨.error .abort, store, flushed, q⟩
  else
    match h : decode_compact_bytes stream with
    | none => ⟨.error .ioErr, store, flushed, q⟩
    | some (key, rest) =>
      if key.isEmpty then
        if batch.isEmpty then ⟨.ok (), store, flushed, q⟩
        else ⟨.ok (), writeBatchTo store batch, flushed ++ [batch], q⟩
      else
        match h2 : decode_compact_bytes rest with
        | none => ⟨.error .ioErr, store, flushed, q⟩
        | some (value, rest2) =>
          if batch_size ≤ size + key.length + value.length then
            applyLoop d batch_size (writeBatchTo store (batch ++ [(key, value)]))
              [] 0 (flushed ++ [batch ++ [(key, value)]]) (q + 1) rest2
          else
            applyLoop d batch_size store (batch ++ [(key, value)])
              (size + key.length + value.length) flushed (q + 1) rest2
termination_by stream.length
decreasing_by
  all_goals
    have l1 := decode_compact_bytes_length_lt h
    have l2 := decode_compact_bytes_length_lt h2
    omega

/-- Embeds `apply_plain_cf_file`: open the file and run the loop over its bytes
into an in-memory batch written through write batches. -/
def apply_plain_cf_file (fs : FS) (path : String) (d : Nat → Bool)
    (db : Store) (batch_size : Nat) : ApplyResult :=
  match lookupFS fs path with
  | some (.plain content) => applyLoop d batch_size db [] 0 [] 0 content
  | _ => ⟨.error .ioErr, db, [], 0⟩

/-- Embeds `apply_sst_cf_file`: one atomic bulk ingest of the file into the cf. -/
def apply_sst_cf_file (fs : FS) (path : String) (db : Store) :
    Except SnapError Store :=
  match lookupFS fs path with
  | some (.sst entries) => .ok (writeBatchTo db entries)
  | _ => .error .ioErr

theorem lookupFS_removeFile (fs : FS) (path : String) :
    lookupFS (removeFile fs path) path = none := by
  unfold lookupFS
  have h : (removeFile fs path).find? (fun e => e.1 == path) = none := by
    rw [List.find?_eq_none]
    intro x hx
    have := (List.mem_filter.mp hx).2
    simpa using this
  rw [h]
  rfl

theorem lookupFS_setFile_fresh (fs : FS) (path : String) (c : FileContent)
    (h : lookupFS fs path = none) : lookupFS (setFile fs path c) path = some c := by
  unfold lookupFS setFile
  have hf : fs.find? (fun e => e.1 == path) = none := by
    unfold lookupFS at h
    cases hx : fs.find? (fun e => e.1 == path) with
    | none => rfl
    | some e => rw [hx] at h; simp at h
  rw [List.find?_append, hf]
  simp

theorem writeBatchTo_append (s : Store) (a b : List KVPair) :
    writeBatchTo s (a ++ b) = writeBatchTo (writeBatchTo s a) b :=
  List.foldl_append _ _ _ _

theorem putKV_all_lt (s : Store) (k : Bytes) (v : Bytes)
    (hall : ∀ kv ∈ s, kv.1 < k) : putKV s k v = s ++ [(k, v)] := by
  induction s with
  | nil => rfl
  | cons kv0 rest ih =>
    obtain ⟨k0, v0⟩ := kv0
    have h0 : k0 < k := hall (k0, v0) (List.mem_cons_self _ _)
    unfold putKV
    rw [if_neg (lt_asymm h0), if_neg (ne_of_gt h0)]
    rw [ih (fun kv hkv => hall kv (List.mem_cons_of_mem _ hkv))]
    rfl

theorem writeBatchTo_sorted (kvs : List KVPair) :
    ∀ s : Store, StoreWf (s ++ kvs) → writeBatchTo s kvs = s ++ kvs := by
  induction kvs with
  | nil =>
    intro s _
    simp [writeBatchTo]
  | cons kv rest ih =>
    intro s hwf
    have hall : ∀ x ∈ s, x.1 < kv.1 := by
      intro x hx
      exact (List.pairwise_append.mp hwf).2.2 x hx kv (List.mem_cons_self _ _)
    show writeBatchTo (putKV s kv.1 kv.2) rest = s ++ kv :: rest
    rw [putKV_all_lt s kv.1 kv.2 hall]
    have h2 : StoreWf ((s ++ [(kv.1, kv.2)]) ++ rest) := by
      rw [List.append_assoc]
      simpa using hwf
    rw [ih (s ++ [(kv.1, kv.2)]) h2]
    simp

theorem applyLoop_success (bs : Nat) :
    ∀ (rs : List KVPair), (∀ kv ∈ rs, kv.1 ≠ []) →
    ∀ (store : Store) (batch : List KVPair) (size : Nat)
      (flushed : List (List KVPair)) (q : Nat),
    ∃ fl dec,
      applyLoop (fun _ => false) bs store batch size flushed q
        (plainBody rs ++ encode_compact_bytes []) =
        ⟨.ok (), writeBatchTo store (batch ++ rs), fl, dec⟩ := by
  intro rs
  induction rs with
  | nil =>
    intro _ store batch size flushed q
    have hstream : plainBody [] ++ encode_compact_bytes [] =
        encode_compact_bytes [] ++ [] := by
      simp [plainBody]
    rw [hstream, applyLoop, if_neg (by simp)]
    split
    · rename_i hnone
      rw [decode_encode_compact_bytes] at hnone
      simp at hnone
    · rename_i key rest hsome
      rw [decode_encode_compact_bytes] at hsome
      obtain ⟨hkey, hrest⟩ : ([] : Bytes) = key ∧ ([] : Bytes) = rest := by
        simpa using hsome.symm
      rw [← hkey]
      simp only [List.isEmpty_nil, if_true]
      by_cases hb : batch.isEmpty
      · refine ⟨flushed, q, ?_⟩
        rw [if_pos hb]
        have : batch = [] := List.isEmpty_iff.mp hb
        simp [this, writeBatchTo]
      · refine ⟨flushed ++ [batch], q, ?_⟩
        rw [if_neg hb]
        simp
  | cons kv rs ih =>
    intro hkeys store batch size flushed q
    obtain ⟨k, v⟩ := kv
    have hk : k ≠ [] := hkeys (k, v) (List.mem_cons_self _ _)
    have hkeys' : ∀ kv ∈ rs, kv.1 ≠ [] := fun x hx => hkeys x (List.mem_cons_of_mem _ hx)
    have hstream : plainBody ((k, v) :: rs) ++ encode_compact_bytes [] =
        encode_compact_bytes k ++
          (encode_compact_bytes v ++ (plainBody rs ++ encode_compact_bytes [])) := by
      simp [plainBody, List.append_assoc]
    rw [hstream, applyLoop, if_neg (by simp)]
    split
    · rename_i hnone
      rw [decode_encode_compact_bytes] at hnone
      simp at hnone
    · rename_i key rest hsome
      rw [decode_encode_compact_bytes] at hsome
      obtain ⟨hkey, hrest⟩ : k = key ∧
          encode_compact_bytes v ++ (plainBody rs ++ encode_compact_bytes []) = rest := by
        simpa using hsome
      rw [if_neg (by rw [← hkey]; simpa using hk)]
      split
      · rename_i hnone2
        rw [← hrest, decode_encode_compact_bytes] at hnone2
        simp at hnone2
      · rename_i value rest2 hsome2
        rw [← hrest, decode_encode_compact_bytes] at hsome2
        obtain ⟨hval, hrest2⟩ : v = value ∧
            plainBody rs ++ encode_compact_bytes [] = rest2 := by
          simpa using hsome2
        rw [← hkey, ← hval, ← hrest2]
        by_cases hflush : bs ≤ size + k.length + v.length
        · rw [if_pos hflush]
          obtain ⟨fl, dec, hres⟩ :=
            ih hkeys' (writeBatchTo store (batch ++ [(k, v)])) [] 0
              (flushed ++ [batch ++ [(k, v)]]) (q + 1)
          refine ⟨fl, dec, ?_⟩
          rw [hres]
          have heq : writeBatchTo (writeBatchTo store (batch ++ [(k, v)])) ([] ++ rs) =
              writeBatchTo store (batch ++ (k, v) :: rs) := by
            rw [List.nil_append, ← writeBatchTo_append]
            congr 1
            simp
          rw [heq]
        · rw [if_neg hflush]
          obtain ⟨fl, dec, hres⟩ :=
            ih hkeys' store (batch ++ [(k, v)]) (size + k.length + v.length)
              flushed (q + 1)
          refine ⟨fl, dec, ?_⟩
          rw [hres]
          have heq : writeBatchTo store ((batch ++ [(k, v)]) ++ rs) =
              writeBatchTo store (batch ++ (k, v) :: rs) := by
            congr 1
            simp
          rw [heq]

/-- One record's effect on the apply state `(store, batch, size, flushed)`:
push the pair, flush the batch once its byte size reaches `bs`. -/
def applyAccStep (bs : Nat) (acc : Store × List KVPair × Nat × List (List KVPair))
    (kv : KVPair) : Store × List KVPair × Nat × List (List KVPair) :=
  if bs ≤ acc.2.2.1 + kv.1.length + kv.2.length then
    (writeBatchTo acc.1 (acc.2.1 ++ [kv]), [], 0, acc.2.2.2 ++ [acc.2.1 ++ [kv]])
  else
    (acc.1, acc.2.1 ++ [kv], acc.2.2.1 + kv.1.length + kv.2.length, acc.2.2.2)

theorem applyLoop_abort (bs : Nat) (d : Nat → Bool) :
    ∀ (n : Nat) (rs : List KVPair), (∀ kv ∈ rs, kv.1 ≠ []) → n ≤ rs.length →
    ∀ (store : Store) (batch : List KVPair) (size : Nat)
      (flushed : List (List KVPair)) (q : Nat) (tail : Bytes),
    (∀ i, i < n → d (q + i) = false) → d (q + n) = true →
    applyLoop d bs store batch size flushed q (plainBody rs ++ tail) =
      ⟨.error .abort,
        ((rs.take n).foldl (applyAccStep bs) (store, batch, size, flushed)).1,
        ((rs.take n).foldl (applyAccStep bs) (store, batch, size, flushed)).2.2.2,
        q + n⟩ := by
  intro n
  induction n with
  | zero =>
    intro rs _ _ store batch size flushed q tail _ hdn
    rw [applyLoop, if_pos (by simpa using hdn)]
    simp
  | succ m ih =>
    intro rs hkeys hn store batch size flushed q tail hdq hdn
    cases rs with
    | nil => simp at hn
    | cons kv rs' =>
      obtain ⟨k, v⟩ := kv
      have hk : k ≠ [] := hkeys (k, v) (List.mem_cons_self _ _)
      have hkeys' : ∀ x ∈ rs', x.1 ≠ [] := fun x hx => hkeys x (List.mem_cons_of_mem _ hx)
      have hd0 : d q = false := by
        have := hdq 0 (Nat.succ_pos m)
        simpa using this
      have hstream : plainBody ((k, v) :: rs') ++ tail =
          encode_compact_bytes k ++
            (encode_compact_bytes v ++ (plainBody rs' ++ tail)) := by
        simp [plainBody, List.append_assoc]
      have hdq' : ∀ i, i < m → d (q + 1 + i) = false := by
        intro i hi
        have := hdq (i + 1) (by omega)
        rwa [show q + (i + 1) = q + 1 + i by omega] at this
      have hdn' : d (q + 1 + m) = true := by
        rwa [show q + (m + 1) = q + 1 + m by omega] at hdn
      rw [hstream, applyLoop, if_neg (by simp [hd0])]
      split
      · rename_i hnone
        rw [decode_encode_compact_bytes] at hnone
        simp at hnone
      · rename_i key rest hsome
        rw [decode_encode_compact_bytes] at hsome
        obtain ⟨hkey, hrest⟩ : k = key ∧
            encode_compact_bytes v ++ (plainBody rs' ++ tail) = rest := by
          simpa using hsome
        rw [if_neg (by rw [← hkey]; simpa using hk)]
        split
        · rename_i hnone2
          rw [← hrest, decode_encode_compact_bytes] at hnone2
          simp at hnone2
        · rename_i value rest2 hsome2
          rw [← hrest, decode_encode_compact_bytes] at hsome2
          obtain ⟨hval, hrest2⟩ : v = value ∧ plainBody rs' ++ tail = rest2 := by
            simpa using hsome2
          rw [← hkey, ← hval, ← hrest2]
          rw [List.take_succ_cons, List.foldl_cons]
          by_cases hflush : bs ≤ size + k.length + v.length
          · rw [if_pos hflush]
            rw [ih rs' hkeys' (by simpa using hn)
              (writeBatchTo store (batch ++ [(k, v)])) [] 0
              (flushed ++ [batch ++ [(k, v)]]) (q + 1) tail hdq' hdn']
            have hstep : applyAccStep bs (store, batch, size, flushed) (k, v) =
                (writeBatchTo store (batch ++ [(k, v)]), [], 0,
                  flushed ++ [batch ++ [(k, v)]]) := by
              unfold applyAccStep
              rw [if_pos (by simpa using hflush)]
            rw [hstep]
            have : q + 1 + m = q + (m + 1) := by omega
            rw [this]
          · rw [if_neg hflush]
            rw [ih rs' hkeys' (by simpa using hn) store (batch ++ [(k, v)])
              (size + k.length + v.length) flushed (q + 1) tail hdq' hdn']
            have hstep : applyAccStep bs (store, batch, size, flushed) (k, v) =
                (store, batch ++ [(k, v)], size + k.length + v.length, flushed) := by
              unfold applyAccStep
              rw [if_neg (by simpa using hflush)]
            rw [hstep]
            have : q + 1 + m = q + (m + 1) := by omega
            rw [this]

theorem apply_plain_stale_at_entry {fs : FS} {path : String} {d : Nat → Bool}
    {db : Store} {bsz : Nat} {content : Bytes}
    (hc : lookupFS fs path = some (.plain content)) (hd : d 0 = true) :
    apply_plain_cf_file fs path d db bsz = ⟨.error .abort, db, [], 0⟩ := by
  unfold apply_plain_cf_file
  rw [hc]
  show applyLoop d bsz db [] 0 [] 0 content = _
  rw [applyLoop, if_pos (by simpa using hd)]

/-! ### Split-key adjustment -/

/-- Embeds `kvproto::metapb::Region`, restricted to the fields the adjuster reads. -/
structure Region where
  start_key : Bytes
  end_key : Bytes
deriving DecidableEq

/-- Embeds `kvproto::raft_cmdpb::SplitRequest`, restricted to the split key. -/
structure SplitRequest where
  split_key : Bytes
deriving DecidableEq

/-- Modelled from the spec: `bytes::decode_bytes` of `tikv_util::codec`
decodes a length-prefixed encoded key, returning the decoded key and the
remaining unconsumed suffix (presumed to be the version marker). -/
def decode_bytes (key : Bytes) : Option (Bytes × Bytes) :=
  decode_compact_bytes key

/-- Embeds `strip_timestamp_if_exists`: on successful decode truncate the trailing
undecoded bytes, otherwise return the key unchanged. -/
def strip_timestamp_if_exists (key : Bytes) : Bytes :=
  match decode_bytes key with
  | some pr => key.take (key.length - pr.2.length)
  | none => key

/-- Modelled from the spec: `util::check_key_in_region_exclusive` — the key
lies strictly inside the region's open interval `(start_key, end_key)`; an
empty region end key denotes an unbounded region end. -/
def check_key_in_region_exclusive (key : Bytes) (region : Region) : Prop :=
  region.start_key < key ∧ (region.end_key = [] ∨ key < region.end_key)

instance (key : Bytes) (region : Region) :
    Decidable (check_key_in_region_exclusive key region) := by
  unfold check_key_in_region_exclusive
  infer_instance

/-- Embeds `is_valid_split_key`: reject empty keys and keys outside the region
(individual rejection, not an error). -/
def is_valid_split_key (key : Bytes) (region : Region) : Bool :=
  if key.isEmpty then false
  else decide (check_key_in_region_exclusive key region)

/-- The running state of itertools' `coalesce` specialised to the closure in
`on_split`: emit `prev` and move on when `prev.split_key < curr.split_key`,
otherwise keep `prev` and drop `curr`. -/
def coalesceGo (prev : SplitRequest) : List SplitRequest → List SplitRequest
  | [] => [prev]
  | curr :: rest =>
    if prev.split_key < curr.split_key then prev :: coalesceGo curr rest
    else coalesceGo prev rest

def coalesceSplits : List SplitRequest → List SplitRequest
  | [] => []
  | x :: xs => coalesceGo x xs

/-- The strip/validate/coalesce pipeline of `on_split` (everything before
the emptiness check). -/
def adjustSplits (region : Region) (splits : List SplitRequest) :
    List SplitRequest :=
  coalesceSplits (splits.filterMap (fun split =>
    let key := strip_timestamp_if_exists split.split_key
    if is_valid_split_key key region then some { split_key := key } else none))

/-- Embeds `SplitObserver::on_split`: run the pipeline; error if nothing survives,
otherwise substitute the surviving list back. -/
def on_split (region : Region) (splits : List SplitRequest) :
    Except String (List SplitRequest) :=
  if (adjustSplits region splits).isEmpty then
    .error "no valid key found for split."
  else
    .ok (adjustSplits region splits)

theorem strip_timestamp_eq_of_decode {key v rest : Bytes}
    (h : decode_bytes key = some (v, rest)) :
    strip_timestamp_if_exists key ++ rest = key := by
  obtain ⟨p, hp, _⟩ := decode_compact_bytes_suffix h
  unfold strip_timestamp_if_exists
  rw [h]
  show key.take (key.length - rest.length) ++ rest = key
  have hlen : key.length - rest.length = p.length := by
    rw [hp, List.length_append]
    omega
  rw [hlen, hp]
  congr 1
  exact List.take_left p rest

/-! ### A store large enough to trigger the bulk-delete file -/

theorem delete_by_writer_trace (files : List (List Bytes)) (s : Store) (p : String)
    (ranges : List KeyRange) (hprod : bulkDeleteFileProduced s ranges = true) :
    (delete_ranges_cf files s (DeleteStrategy.deleteByWriter p) ranges).2 =
      [DeleteEvent.sstWriterFinish p, DeleteEvent.ingestFiles p true] := by
  unfold bulkDeleteFileProduced at hprod
  unfold delete_ranges_cf
  cases hms : ranges.mergeSort (fun a b => decide (a.start_key ≤ b.start_key)) with
  | nil =>
    rw [hms] at hprod
    simp at hprod
  | cons r0 rest =>
    rw [hms] at hprod
    change (ingestFoldAcc s r0 rest).writer.isSome = true at hprod
    obtain ⟨ws, hw⟩ := Option.isSome_iff_exists.mp hprod
    have hne : ¬ ranges.isEmpty = true := by
      intro he
      have hnil : ranges = [] := List.isEmpty_iff.mp he
      subst hnil
      simp at hms
    rw [if_neg hne]
    show (delete_all_in_range_cf_by_ingest p s ranges).2 = _
    unfold delete_all_in_range_cf_by_ingest
    rw [hms]
    show (ingestSorted p s r0 rest).2 = _
    rw [ingestSorted_eq_writer p s r0 rest ws hw]

theorem bulkProduced_single {s : Store} (hs : StoreWf s) (r : KeyRange)
    (hall : ∀ kv ∈ s, r.containsKey kv.1)
    (hlen : MAX_DELETE_COUNT_BY_KEY < s.length) :
    bulkDeleteFileProduced s [r] = true := by
  unfold bulkDeleteFileProduced
  have hms : [r].mergeSort (fun a b => decide (a.start_key ≤ b.start_key)) = [r] :=
    List.mergeSort_singleton r
  rw [hms]
  show (ingestFoldAcc s r []).writer.isSome = true
  unfold ingestFoldAcc
  rw [List.foldl_cons, List.foldl_nil]
  rw [ingestRangeStep_eq_normal r.start_key (maxEndKey r [r]) ⟨s, [], none, none⟩ r rfl]
  have hend : r.end_key ≤ maxEndKey r [r] :=
    end_le_foldl_max (List.mem_singleton.mpr rfl) _
  rw [iterCollectKeys_eq hs r le_rfl hend]
  have hfe : s.filter (fun kv => decide (r.containsKey kv.1)) = s :=
    List.filter_eq_self.mpr (fun kv hkv => by simpa using hall kv hkv)
  rw [hfe]
  rw [ingestKeyFold_writer _ _ (by simp [MAX_DELETE_COUNT_BY_KEY])]
  simp [hlen]

/-- A concrete store of 2050 distinct keys, enough to exceed
`MAX_DELETE_COUNT_BY_KEY`. -/
def s2050 : Store :=
  (List.range 2050).map (fun i => ([i / 256, i % 256], ([0] : Bytes)))

/-- A range containing every key of `s2050`. -/
def r2050 : KeyRange := ⟨[0], [9]⟩

theorem s2050_wf : StoreWf s2050 := by
  unfold s2050
  apply List.pairwise_map.mpr
  apply (List.pairwise_lt_range 2050).imp
  intro i j hij
  show [i / 256, i % 256] < [j / 256, j % 256]
  rcases Nat.lt_or_ge (i / 256) (j / 256) with h | h
  · exact List.Lex.rel h
  · have heq : i / 256 = j / 256 :=
      le_antisymm (Nat.div_le_div_right (le_of_lt hij)) h
    have hmod : i % 256 < j % 256 := by omega
    rw [show [i / 256, i % 256] = [j / 256, i % 256] by rw [heq]]
    exact List.Lex.cons (List.Lex.rel hmod)

theorem s2050_all : ∀ kv ∈ s2050, r2050.containsKey kv.1 := by
  intro kv hkv
  obtain ⟨i, hi, rfl⟩ := List.mem_map.mp hkv
  have hi2 : i < 2050 := List.mem_range.mp hi
  constructor
  · show ([0] : Bytes) ≤ [i / 256, i % 256]
    apply le_of_lt
    rcases Nat.eq_zero_or_pos (i / 256) with h | h
    · rw [show [i / 256, i % 256] = [0, i % 256] by rw [h]]
      exact List.Lex.cons List.Lex.nil
    · exact List.Lex.rel h
  · show [i / 256, i % 256] < [9]
    apply List.Lex.rel
    omega

theorem s2050_len : MAX_DELETE_COUNT_BY_KEY < s2050.length := by
  simp [s2050, MAX_DELETE_COUNT_BY_KEY]

theorem bulkProduced_s2050 : bulkDeleteFileProduced s2050 [r2050] = true :=
  bulkProduced_single s2050_wf r2050 s2050_all s2050_len

/-! ### The claims -/

theorem inAnyRange_single (a b k : Bytes) :
    inAnyRange [⟨a, b⟩] k ↔ a ≤ k ∧ k < b := by
  simp [inAnyRange, KeyRange.containsKey]

/-- C1: for every strategy, after a successful
`delete_ranges_cf(cf, strategy, [(a, b)])` over a single non-degenerate
range, scanning the cf yields no key `k` with `a ≤ k < b` and every entry
outside `[a, b)` is untouched (the store becomes exactly its entries outside
the range) — for every strategy except `DeleteFiles`, which is only
guaranteed never to remove an entry whose key lies strictly outside the
range. -/
theorem c1_delete_single_range (files : List (List Bytes)) {s : Store}
    (hs : StoreWf s) (a b : Bytes) (_hab : a < b) :
    (∀ strategy, strategy ≠ DeleteStrategy.deleteFiles →
      (delete_ranges_cf files s strategy [⟨a, b⟩]).1 =
        s.filter (fun kv => decide (¬ (a ≤ kv.1 ∧ kv.1 < b))) ∧
      scan_cf (delete_ranges_cf files s strategy [⟨a, b⟩]).1 a b = []) ∧
    ((delete_ranges_cf files s DeleteStrategy.deleteFiles [⟨a, b⟩]).1.Sublist s ∧
      ∀ kv ∈ s, kv ∉ (delete_ranges_cf files s DeleteStrategy.deleteFiles [⟨a, b⟩]).1 →
        a ≤ kv.1 ∧ kv.1 < b) := by
  constructor
  · intro strategy hstrat
    have hmain : (delete_ranges_cf files s strategy [⟨a, b⟩]).1 =
        s.filter (fun kv => decide (¬ (a ≤ kv.1 ∧ kv.1 < b))) := by
      rw [delete_ranges_cf_store_nonfiles files hs strategy [⟨a, b⟩] hstrat]
      apply List.filter_congr
      intro kv _
      exact decide_eq_decide.mpr (not_congr (inAnyRange_single a b kv.1))
    refine ⟨hmain, ?_⟩
    rw [hmain]
    apply List.filter_eq_nil_iff.mpr
    intro kv hkv
    have := (List.mem_filter.mp hkv).2
    simp only [decide_eq_true_eq] at this
    simpa using this
  · have hfiles := delete_ranges_cf_store_files files s [⟨a, b⟩]
    constructor
    · rw [hfiles]
      exact List.filter_sublist s
    · intro kv hkv hnot
      rw [hfiles] at hnot
      have hpred : filesDeletedPred files [⟨a, b⟩] kv.1 := by
        by_contra hnp
        exact hnot (List.mem_filter.mpr ⟨hkv, by simpa using hnp⟩)
      have := filesDeletedPred_in_range hpred
      exact (inAnyRange_single a b kv.1).mp this

theorem c1_delete_single_range_witness :
    (∀ strategy, strategy ≠ DeleteStrategy.deleteFiles →
      (delete_ranges_cf [] [([1],[5]),([2],[6]),([3],[7])] strategy [⟨[2], [3]⟩]).1 =
        [([1],[5]),([2],[6]),([3],[7])].filter
          (fun kv => decide (¬ ([2] ≤ kv.1 ∧ kv.1 < [3]))) ∧
      scan_cf (delete_ranges_cf [] [([1],[5]),([2],[6]),([3],[7])] strategy
        [⟨[2], [3]⟩]).1 [2] [3] = []) ∧
    ((delete_ranges_cf [] [([1],[5]),([2],[6]),([3],[7])]
        DeleteStrategy.deleteFiles [⟨[2], [3]⟩]).1.Sublist
          [([1],[5]),([2],[6]),([3],[7])] ∧
      ∀ kv ∈ ([([1],[5]),([2],[6]),([3],[7])] : Store),
        kv ∉ (delete_ranges_cf [] [([1],[5]),([2],[6]),([3],[7])]
          DeleteStrategy.deleteFiles [⟨[2], [3]⟩]).1 →
        [2] ≤ kv.1 ∧ kv.1 < [3]) :=
  c1_delete_single_range [] (by decide) [2] [3] (by decide)

/-- C8: re-invoking `delete_ranges_cf` with the same arguments immediately
after a successful first call changes nothing observable in the store, for
every strategy and every range list. -/
theorem c8_delete_ranges_idempotent (files : List (List Bytes)) {s : Store}
    (hs : StoreWf s) (strategy : DeleteStrategy) (ranges : List KeyRange) :
    (delete_ranges_cf files (delete_ranges_cf files s strategy ranges).1
        strategy ranges).1 =
      (delete_ranges_cf files s strategy ranges).1 := by
  by_cases hstrat : strategy = DeleteStrategy.deleteFiles
  · subst hstrat
    rw [delete_ranges_cf_store_files files s ranges,
      delete_ranges_cf_store_files files _ ranges, filter_idem]
  · rw [delete_ranges_cf_store_nonfiles files hs strategy ranges hstrat,
      delete_ranges_cf_store_nonfiles files (hs.filter _) strategy ranges hstrat,
      filter_idem]

theorem c8_delete_ranges_idempotent_witness :
    (delete_ranges_cf []
        (delete_ranges_cf [] [([1],[5]),([2],[6])] DeleteStrategy.deleteByKey
          [⟨[1], [2]⟩]).1
        DeleteStrategy.deleteByKey [⟨[1], [2]⟩]).1 =
      (delete_ranges_cf [] [([1],[5]),([2],[6])] DeleteStrategy.deleteByKey
        [⟨[1], [2]⟩]).1 :=
  c8_delete_ranges_idempotent [] (by decide) DeleteStrategy.deleteByKey [⟨[1], [2]⟩]

/-- C2: the build/apply round trip on the plain format is the identity. For
any snapshot whose scan of `[a, b)` is a non-empty list of pairs (with the
format's implicit precondition that no key is the empty sentinel),
`build_plain_cf_file` into a fresh path succeeds, and a subsequent
`apply_plain_cf_file` of that file into an empty target cf succeeds and
stores exactly the scanned pairs. -/
theorem c2_plain_roundtrip {src : Store} (hsrc : StoreWf src) (fs : FS)
    (path : String) (a b : Bytes) (bsz : Nat)
    (hfresh : lookupFS fs path = none)
    (hne : scan_cf src a b ≠ [])
    (hkeys : ∀ kv ∈ scan_cf src a b, kv.1 ≠ []) :
    ∃ fs2 : FS,
      build_plain_cf_file fs path src a b =
        .ok (fs2, buildStats (scan_cf src a b)) ∧
      (apply_plain_cf_file fs2 path (fun _ => false) [] bsz).res = .ok () ∧
      (apply_plain_cf_file fs2 path (fun _ => false) [] bsz).store =
        scan_cf src a b := by
  have hkwf : StoreWf (scan_cf src a b) := hsrc.filter _
  have hlen : 0 < (scan_cf src a b).length := List.length_pos.mpr hne
  refine ⟨setFile fs path
    (.plain (plainBody (scan_cf src a b) ++ encode_compact_bytes [])), ?_, ?_⟩
  · unfold build_plain_cf_file
    rw [if_neg (by simp [hfresh])]
    simp only [if_pos hlen]
  · have hlook : lookupFS (setFile fs path
        (.plain (plainBody (scan_cf src a b) ++ encode_compact_bytes []))) path =
        some (.plain (plainBody (scan_cf src a b) ++ encode_compact_bytes [])) :=
      lookupFS_setFile_fresh fs path _ hfresh
    unfold apply_plain_cf_file
    rw [hlook]
    show (applyLoop (fun _ => false) bsz [] [] 0 [] 0 _).res = Except.ok () ∧
      (applyLoop (fun _ => false) bsz [] [] 0 [] 0 _).store = scan_cf src a b
    obtain ⟨fl, dec, hres⟩ :=
      applyLoop_success bsz (scan_cf src a b) hkeys [] [] 0 [] 0
    rw [hres]
    refine ⟨rfl, ?_⟩
    show writeBatchTo [] ([] ++ scan_cf src a b) = scan_cf src a b
    rw [List.nil_append]
    have := writeBatchTo_sorted (scan_cf src a b) [] (by simpa using hkwf)
    simpa using this

theorem c2_plain_roundtrip_witness :
    ∃ fs2 : FS,
      build_plain_cf_file [] "snap" [([1],[9])] [0] [5] =
        .ok (fs2, buildStats (scan_cf [([1],[9])] [0] [5])) ∧
      (apply_plain_cf_file fs2 "snap" (fun _ => false) [] 1).res = .ok () ∧
      (apply_plain_cf_file fs2 "snap" (fun _ => false) [] 1).store =
        scan_cf [([1],[9])] [0] [5] :=
  c2_plain_roundtrip (by decide) [] "snap" [0] [5] 1 (by rfl) (by decide) (by decide)

/-- C4: a snapshot build over a range containing zero keys succeeds with
`key_count = 0` and leaves no file at the target path (probing the path
reports not-found), for both the plain and the sst encoding. -/
theorem c4_empty_build_no_file (fs : FS) (path : String) (snap : Store)
    (a b : Bytes) (hfresh : lookupFS fs path = none)
    (hempty : scan_cf snap a b = []) :
    (∃ fs2, build_plain_cf_file fs path snap a b = .ok (fs2, ⟨0, 0⟩) ∧
      lookupFS fs2 path = none) ∧
    (∃ fs2, build_sst_cf_file fs path snap a b = .ok (fs2, ⟨0, 0⟩) ∧
      lookupFS fs2 path = none) := by
  constructor
  · refine ⟨removeFile (setFile fs path (.plain (plainBody (scan_cf snap a b))))
      path, ?_, lookupFS_removeFile _ _⟩
    unfold build_plain_cf_file
    rw [if_neg (by simp [hfresh])]
    rw [if_neg (by simp [hempty])]
    rw [hempty]
    rfl
  · refine ⟨removeFile (setFile fs path (.sst [])) path, ?_,
      lookupFS_removeFile _ _⟩
    unfold build_sst_cf_file
    rw [if_neg (by simp [hempty])]
    rw [hempty]
    rfl

theorem c4_empty_build_no_file_witness :
    (∃ fs2, build_plain_cf_file [] "p" [([9],[1])] [0] [5] = .ok (fs2, ⟨0, 0⟩) ∧
      lookupFS fs2 "p" = none) ∧
    (∃ fs2, build_sst_cf_file [] "p" [([9],[1])] [0] [5] = .ok (fs2, ⟨0, 0⟩) ∧
      lookupFS fs2 "p" = none) :=
  c4_empty_build_no_file [] "p" [([9],[1])] [0] [5] (by rfl) (by decide)

/-- C5: the stale detector is queried once at the top of every iteration,
before each record decode. If it first returns `true` at the `n`-th query
(`n` at most the number of records), the call returns the `Abort` error
immediately: exactly `n` records were decoded, the callback saw exactly the
batches flushed before the abort, and the target store holds exactly those
flushed batches (the pending unflushed batch is not written). -/
theorem c5_stale_abort {rs : List KVPair} (hkeys : ∀ kv ∈ rs, kv.1 ≠ [])
    {n : Nat} (hn : n ≤ rs.length) {d : Nat → Bool}
    (hdq : ∀ i, i < n → d i = false) (hdn : d n = true)
    (fs : FS) (path : String) (db : Store) (bsz : Nat)
    (hfile : lookupFS fs path =
      some (.plain (plainBody rs ++ encode_compact_bytes []))) :
    apply_plain_cf_file fs path d db bsz =
      ⟨.error .abort,
        ((rs.take n).foldl (applyAccStep bsz) (db, [], 0, [])).1,
        ((rs.take n).foldl (applyAccStep bsz) (db, [], 0, [])).2.2.2,
        n⟩ := by
  unfold apply_plain_cf_file
  rw [hfile]
  show applyLoop d bsz db [] 0 [] 0 (plainBody rs ++ encode_compact_bytes []) = _
  have h := applyLoop_abort bsz d n rs hkeys hn db [] 0 [] 0
    (encode_compact_bytes [])
    (by intro i hi; simpa using hdq i hi) (by simpa using hdn)
  simpa using h

theorem c5_stale_abort_witness :
    apply_plain_cf_file
      [("s", .plain (plainBody [([1],[2]),([3],[4])] ++ encode_compact_bytes []))]
      "s" (fun i => decide (1 ≤ i)) [] 1 =
      ⟨.error .abort,
        (([([1],[2]),([3],[4])].take 1).foldl (applyAccStep 1) ([], [], 0, [])).1,
        (([([1],[2]),([3],[4])].take 1).foldl (applyAccStep 1) ([], [], 0, [])).2.2.2,
        1⟩ :=
  c5_stale_abort (by decide) (by decide)
    (by
      intro i hi
      cases i with
      | zero => rfl
      | succ m => omega)
    (by rfl) _ "s" [] 1 (by rfl)

/-- C10: if the stale detector already reports stale on entry (its first
query returns `true`), `apply_plain_cf_file` returns the `Abort` error
before decoding any record: zero records decoded, the target store is
unchanged, and the observation callback is never invoked. -/
theorem c10_stale_at_entry (fs : FS) (path : String) (d : Nat → Bool)
    (db : Store) (bsz : Nat) (content : Bytes)
    (hfile : lookupFS fs path = some (.plain content)) (hd : d 0 = true) :
    apply_plain_cf_file fs path d db bsz = ⟨.error .abort, db, [], 0⟩ :=
  apply_plain_stale_at_entry hfile hd

theorem c10_stale_at_entry_witness :
    apply_plain_cf_file [("p", .plain [7])] "p" (fun _ => true)
      [([1],[1])] 5 = ⟨.error .abort, [([1],[1])], [], 0⟩ :=
  c10_stale_at_entry [("p", .plain [7])] "p" (fun _ => true) [([1],[1])] 5 [7]
    (by rfl) (by rfl)

/-- C3 counterexample: the candidate list `["b","a","d","d","c"]` (as byte
keys `[98],[97],[100],[100],[99]`) inside region `("", "z")` does NOT
survive adjustment as the sorted list `[a,b,c,d]`: `on_split` keeps `[b,d]`,
because each candidate not strictly greater than the last kept one is
dropped — out-of-order candidates are discarded, not reordered. -/
theorem c3_counterexample :
    on_split ⟨[], [122]⟩ [⟨[98]⟩, ⟨[97]⟩, ⟨[100]⟩, ⟨[100]⟩, ⟨[99]⟩] =
      .ok [⟨[98]⟩, ⟨[100]⟩] ∧
    ([⟨[98]⟩, ⟨[100]⟩] : List SplitRequest) ≠
      [⟨[97]⟩, ⟨[98]⟩, ⟨[99]⟩, ⟨[100]⟩] :=
  ⟨by rfl, by decide⟩

/-- C3 amended: the candidate list `["b","a","d","d","c"]` inside region
`("", "z")` survives adjustment as `["b","d"]`: scanning in original order,
the first candidate is kept and every candidate not strictly greater than
the last kept one is dropped (first-kept-wins on ties); the surviving list
is strictly increasing. -/
theorem c3_adjusted_splits :
    on_split ⟨[], [122]⟩ [⟨[98]⟩, ⟨[97]⟩, ⟨[100]⟩, ⟨[100]⟩, ⟨[99]⟩] =
      .ok [⟨[98]⟩, ⟨[100]⟩] ∧
    List.Pairwise (fun a b : SplitRequest => a.split_key < b.split_key)
      [⟨[98]⟩, ⟨[100]⟩] :=
  ⟨by rfl, by decide⟩

/-- C7: `on_split` fails (with the descriptive error) exactly when no
candidate survives the strip/validity/ordering pipeline; the region
`("m","z")` with single candidate `"a"` (outside the region) errors; a
successful call returns the non-empty surviving list, substituted back. -/
theorem c7_on_split_error_iff :
    on_split ⟨[109], [122]⟩ [⟨[97]⟩] = .error "no valid key found for split." ∧
    (∀ region splits, (∃ e, on_split region splits = .error e) ↔
      adjustSplits region splits = []) ∧
    (∀ region splits out, on_split region splits = .ok out →
      out ≠ [] ∧ out = adjustSplits region splits) := by
  refine ⟨by rfl, ?_, ?_⟩
  · intro region splits
    constructor
    · rintro ⟨e, he⟩
      unfold on_split at he
      by_cases h : (adjustSplits region splits).isEmpty
      · exact List.isEmpty_iff.mp h
      · rw [if_neg h] at he
        cases he
    · intro h
      refine ⟨"no valid key found for split.", ?_⟩
      unfold on_split
      rw [if_pos (by simp [h])]
  · intro region splits out hok
    unfold on_split at hok
    by_cases h : (adjustSplits region splits).isEmpty
    · rw [if_pos h] at hok
      cases hok
    · rw [if_neg h] at hok
      cases hok
      exact ⟨by simpa using h, rfl⟩

theorem c7_on_split_error_iff_witness :
    ([⟨[98]⟩] : List SplitRequest) ≠ [] ∧
    ([⟨[98]⟩] : List SplitRequest) = adjustSplits ⟨[], [122]⟩ [⟨[98]⟩] :=
  c7_on_split_error_iff.2.2 ⟨[], [122]⟩ [⟨[98]⟩] [⟨[98]⟩] (by rfl)

/-- C9: `strip_timestamp_if_exists` always returns a prefix of its input
(never longer): if the key decodes, exactly the trailing undecoded bytes
are truncated (result concatenated with the undecoded suffix restores the
key); if decoding fails, the key is returned unchanged. -/
theorem c9_strip_timestamp_spec (key : Bytes) :
    strip_timestamp_if_exists key <+: key ∧
    (strip_timestamp_if_exists key).length ≤ key.length ∧
    (decode_bytes key = none → strip_timestamp_if_exists key = key) ∧
    (∀ v rest, decode_bytes key = some (v, rest) →
      strip_timestamp_if_exists key ++ rest = key) := by
  have hmain : ∀ v rest, decode_bytes key = some (v, rest) →
      strip_timestamp_if_exists key ++ rest = key := by
    intro v rest h
    exact strip_timestamp_eq_of_decode h
  have hvac : decode_bytes key = none → strip_timestamp_if_exists key = key := by
    intro h
    unfold strip_timestamp_if_exists
    rw [h]
  have hpre : strip_timestamp_if_exists key <+: key := by
    cases hd : decode_bytes key with
    | none => rw [hvac hd]
    | some pr =>
      obtain ⟨v, rest⟩ := pr
      exact ⟨rest, hmain v rest hd⟩
  exact ⟨hpre, List.IsPrefix.length_le hpre, hvac, hmain⟩

theorem c9_strip_timestamp_spec_witness :
    strip_timestamp_if_exists [2, 10, 20, 99] ++ [99] = [2, 10, 20, 99] ∧
    strip_timestamp_if_exists [98] = [98] :=
  ⟨(c9_strip_timestamp_spec [2, 10, 20, 99]).2.2.2 [10, 20] [99] (by rfl),
    (c9_strip_timestamp_spec [98]).2.2.1 (by rfl)⟩

/-- C6 counterexample: a `DeleteByWriter` call that produces a bulk-delete
file (here: 2050 keys in one range, exceeding `MAX_DELETE_COUNT_BY_KEY`)
finishes and ingests the file but performs no fsync of it — the claim's
"finished, fsynced, and then ingested" does not hold as stated. -/
theorem c6_counterexample :
    bulkDeleteFileProduced s2050 [r2050] = true ∧
    DeleteEvent.fileSync "bulk.sst" ∉
      (delete_ranges_cf [] s2050 (DeleteStrategy.deleteByWriter "bulk.sst")
        [r2050]).2 := by
  refine ⟨bulkProduced_s2050, ?_⟩
  rw [delete_by_writer_trace [] s2050 "bulk.sst" [r2050] bulkProduced_s2050]
  decide

/-- C6 amended: whenever the `DeleteByWriter` strategy produced a bulk-delete
file (the in-memory buffer exceeded the count threshold at least once), that
file is finished and then ingested into the column family with
move-semantics (`move_files(true)`: the engine consumes the source file);
no separate fsync of the file is performed before ingestion. -/
theorem c6_finish_ingest_move (files : List (List Bytes)) (s : Store)
    (p : String) (ranges : List KeyRange)
    (hprod : bulkDeleteFileProduced s ranges = true) :
    (delete_ranges_cf files s (DeleteStrategy.deleteByWriter p) ranges).2 =
      [DeleteEvent.sstWriterFinish p, DeleteEvent.ingestFiles p true] ∧
    (∀ q, DeleteEvent.fileSync q ∉
      (delete_ranges_cf files s (DeleteStrategy.deleteByWriter p) ranges).2) := by
  have h := delete_by_writer_trace files s p ranges hprod
  refine ⟨h, ?_⟩
  intro q
  rw [h]
  simp

theorem c6_finish_ingest_move_witness :
    bulkDeleteFileProduced s2050 [r2050] = true ∧
    (delete_ranges_cf [] s2050 (DeleteStrategy.deleteByWriter "bulk.sst")
        [r2050]).2 =
      [DeleteEvent.sstWriterFinish "bulk.sst",
        DeleteEvent.ingestFiles "bulk.sst" true] :=
  ⟨bulkProduced_s2050,
    (c6_finish_ingest_move [] s2050 "bulk.sst" [r2050] bulkProduced_s2050).1⟩
